import Mathlib

/-!
Verification development for the `gnucashxml` loader (`src/gnucashxml.py`).

The Python code is shallowly embedded:

* Python `str` values are modelled as `String` / `List Char`;
* `decimal.Decimal` values are modelled by `PyDec` (an exact coefficient /
  exponent pair for finite values, plus infinities and NaNs); arithmetic on
  them follows the default `decimal` context of CPython: 28 significant
  digits, rounding half to even;
* Python exceptions are modelled by `PyErr`; a function that can raise
  returns `Except PyErr _`;
* `dateutil.parser.parse` (an external library, out of scope of the spec's
  claims) is modelled as an injective constructor keeping the raw text;
* XML elements are modelled by records carrying exactly the sub-element
  texts the loader reads; element navigation (`tree.find(...)`) is out of
  scope, the records start where `.text` is taken.

Machine integers do not occur (Python integers are unbounded), so `ℤ` and
`ℕ` are used directly.
-/

/-! ## Generic helpers -/

/-- Powers of ten over `ℕ` (kernel-friendly). -/
def pow10 (k : ℕ) : ℕ := 10 ^ k

/-- Powers of ten cast to `ℤ`. -/
def zpow10 (k : ℕ) : ℤ := ((pow10 k : ℕ) : ℤ)

/-- Fuel-driven decimal digit counter (structural recursion so that the
kernel can evaluate it). -/
def digLenAux : ℕ → ℕ → ℕ
  | 0, _ => 0
  | f + 1, n => if n = 0 then 0 else digLenAux f (n / 10) + 1

/-- Number of decimal digits of `n` (`digLen 0 = 0`). -/
def digLen (n : ℕ) : ℕ := digLenAux (n + 1) n

/-- Python dictionary assignment `d[k] = v` on an association list:
an existing key keeps its position and gets the new value, a new key is
appended at the end.  This mirrors CPython's insertion-order semantics. -/
def dictInsert {α : Type} : List (String × α) → String → α → List (String × α)
  | [], k, v => [(k, v)]
  | (k', v') :: t, k, v =>
    if k' = k then (k', v) :: t else (k', v') :: dictInsert t k v

/-! ## Python exceptions -/

/-- The kinds of exception the loader can raise.  The spec's abstract
`FormatError` corresponds to `valueError` (tuple-unpacking a split that did
not produce two parts, wrong root tag) and `invalidOperation`
(`decimal.InvalidOperation` from an unparsable numeral). -/
inductive PyErr where
  | valueError
  | invalidOperation
  | divisionByZero
  | keyError
  | attributeError
  | typeError
  | runtimeError
deriving DecidableEq

instance exceptDecEq {ε α : Type} [DecidableEq ε] [DecidableEq α] :
    DecidableEq (Except ε α)
  | .error e, .error e' =>
    if h : e = e' then .isTrue (by rw [h]) else .isFalse (by simp [h])
  | .error _, .ok _ => .isFalse (by simp)
  | .ok _, .error _ => .isFalse (by simp)
  | .ok a, .ok a' =>
    if h : a = a' then .isTrue (by rw [h]) else .isFalse (by simp [h])

/-! ## Characters and digit strings -/

def isDigitChar (c : Char) : Bool := 48 ≤ c.toNat && c.toNat ≤ 57

def digitVal (c : Char) : ℕ := c.toNat - 48

def digitChar (k : ℕ) : Char := Char.ofNat (48 + k)

/-- ASCII whitespace as stripped by `str.strip` and the `\s` class of the
numeric-string regular expression. -/
def isPyWs (c : Char) : Bool :=
  c = ' ' || c = '\t' || c = '\n' || c = '\r' || c = '\x0b' || c = '\x0c'

/-- Lower-casing of ASCII letters (the numeric-string grammar is
case-insensitive). -/
def lcChar (c : Char) : Char :=
  if 65 ≤ c.toNat && c.toNat ≤ 90 then Char.ofNat (c.toNat + 32) else c

def trimChars (l : List Char) : List Char :=
  ((l.dropWhile isPyWs).reverse.dropWhile isPyWs).reverse

def stripUnderscores (l : List Char) : List Char := l.filter (fun c => c ≠ '_')

/-- Value of a big-endian list of decimal digit characters. -/
def digitsToNat (l : List Char) : ℕ := l.foldl (fun a c => 10 * a + digitVal c) 0

/-! ## The `decimal.Decimal` model -/

/-- A Python `decimal.Decimal`: `finite c e` has value `c * 10 ^ e`. -/
inductive PyDec where
  | finite (coef : ℤ) (exp : ℤ)
  | inf (neg : Bool)
  | nan
  | snan
deriving DecidableEq

/-- Optional leading sign (shared by the mantissa, the exponent and
`int()`). -/
def readSign : List Char → Bool × List Char
  | [] => (false, [])
  | c :: t => if c = '-' then (true, t) else if c = '+' then (false, t) else (false, c :: t)

/-- Case-insensitive keyword matching; returns the rest of the input on
success. -/
def matchCI : List Char → List Char → Option (List Char)
  | [], l => some l
  | _ :: _, [] => none
  | p :: ps, c :: cs => if lcChar c = p then matchCI ps cs else none

/-- The optional exponent part `E[-+]?digits` of a numeric string; must
consume the whole rest of the input. -/
def readExp : List Char → Option ℤ
  | [] => some 0
  | c :: t =>
    if lcChar c = 'e' then
      let p := readSign t
      let ds := p.2.takeWhile isDigitChar
      let rest := p.2.dropWhile isDigitChar
      if ds ≠ [] ∧ rest = [] then
        some (if p.1 then -(digitsToNat ds : ℤ) else (digitsToNat ds : ℤ))
      else none
    else none

/-- The (unsigned) finite part of a numeric string: digits with an optional
fractional part — at least one digit in total — and an optional exponent.
Returns the coefficient and the (exponent − fraction length). -/
def readFinite (l : List Char) : Option (ℤ × ℤ) :=
  let ip := l.takeWhile isDigitChar
  let r1 := l.dropWhile isDigitChar
  match r1 with
  | '.' :: t =>
    let fp := t.takeWhile isDigitChar
    let r2 := t.dropWhile isDigitChar
    if ip = [] ∧ fp = [] then none
    else
      match readExp r2 with
      | some e => some ((digitsToNat (ip ++ fp) : ℤ), e - fp.length)
      | none => none
  | r =>
    if ip = [] then none
    else
      match readExp r with
      | some e => some ((digitsToNat ip : ℤ), e)
      | none => none

/-- Python `decimal.Decimal(string)`: strip surrounding whitespace, drop
underscores, then match

    [sign] (digits [. digits] [E [sign] digits] | Inf | Infinity
            | [s] NaN digits*)

case-insensitively (the regular expression of `_pydecimal`/`libmpdec`).
Returns `none` where CPython raises `decimal.InvalidOperation`. -/
def decOfChars (s : List Char) : Option PyDec :=
  let l := stripUnderscores (trimChars s)
  let p := readSign l
  match matchCI ['i', 'n', 'f'] p.2 with
  | some rest =>
    if rest = [] ∨ matchCI ['i', 'n', 'i', 't', 'y'] rest = some [] then
      some (.inf p.1)
    else none
  | none =>
  match matchCI ['s', 'n', 'a', 'n'] p.2 with
  | some rest => if rest.all isDigitChar then some .snan else none
  | none =>
  match matchCI ['n', 'a', 'n'] p.2 with
  | some rest => if rest.all isDigitChar then some .nan else none
  | none =>
  match readFinite p.2 with
  | some ce => some (.finite (if p.1 then -ce.1 else ce.1) ce.2)
  | none => none

/-- The exact value of `(c₁·10^e₁) / (c₂·10^e₂)` as an unreduced fraction
with positive denominator (meaningful for `c₂ ≠ 0`). -/
def fracOfDiv (c₁ e₁ c₂ e₂ : ℤ) : ℤ × ℤ :=
  let n := c₁ * zpow10 (e₁ - e₂).toNat
  let d := c₂ * zpow10 (e₂ - e₁).toNat
  if d < 0 then (-n, -d) else (n, d)

/-- `⌊n / d⌋` for `d > 0` (Lean's `Int` division is Euclidean, hence floor
division for a positive divisor). -/
def fdivZ (n d : ℤ) : ℤ := n / d

/-- `⌈n / d⌉` for `d > 0`. -/
def cdivZ (n d : ℤ) : ℤ := -((-n) / d)

/-- `floor (log10 (n/d))` for `n, d > 0`, computed from digit counts. -/
def floorLog10 (n d : ℤ) : ℤ :=
  let e0 : ℤ := (digLen n.natAbs : ℤ) - (digLen d.natAbs : ℤ)
  if 0 ≤ e0 then
    if d * zpow10 e0.toNat ≤ n then e0 else e0 - 1
  else
    if d ≤ n * zpow10 (-e0).toNat then e0 else e0 - 1

/-- Round `n / d` (`d > 0`) to the nearest integer, ties to even
(`ROUND_HALF_EVEN`). -/
def rneInt (n d : ℤ) : ℤ :=
  let f := n / d
  let r2 := 2 * (n - f * d)
  if r2 < d then f
  else if d < r2 then f + 1
  else if f % 2 = 0 then f else f + 1

/-- Round the positive fraction `n / d` to 28 significant digits
(round-half-even), returned as a decimal coefficient/exponent pair. -/
def rhe28pos (n d : ℤ) : ℤ × ℤ :=
  let e := floorLog10 n d
  let c := if 0 ≤ e - 27 then rneInt n (d * zpow10 (e - 27).toNat)
           else rneInt (n * zpow10 (27 - e).toNat) d
  (c, e - 27)

/-- Round the fraction `n / d` (`d > 0`) to 28 significant digits,
round-half-even — the value computed by `decimal` division at the default
context. -/
def rhe28 (n d : ℤ) : ℤ × ℤ :=
  if n = 0 then (0, 0)
  else if 0 < n then rhe28pos n d
  else ((-(rhe28pos (-n) d).1), (rhe28pos (-n) d).2)

/-- Python `Decimal.__truediv__` at the default context (precision 28,
`ROUND_HALF_EVEN`), modelled on values: a signalling NaN or `∞/∞` or `0/0`
raises `InvalidOperation`, `x/0` raises `DivisionByZero`, a quiet NaN
propagates, and a finite quotient is the exact ratio rounded to 28
significant digits. -/
def decDiv : PyDec → PyDec → Except PyErr PyDec
  | .snan, _ => .error .invalidOperation
  | _, .snan => .error .invalidOperation
  | .nan, _ => .ok .nan
  | _, .nan => .ok .nan
  | .inf _, .inf _ => .error .invalidOperation
  | .inf a, .finite c _ => .ok (.inf (a != decide (c < 0)))
  | .finite _ _, .inf _ => .ok (.finite 0 0)
  | .finite c₁ e₁, .finite c₂ e₂ =>
    if c₂ = 0 then
      if c₁ = 0 then .error .invalidOperation else .error .divisionByZero
    else
      let nd := fracOfDiv c₁ e₁ c₂ e₂
      let ce := rhe28 nd.1 nd.2
      .ok (.finite ce.1 ce.2)

/-- Result of `_parse_number`: a `Decimal` quantized to two fractional
digits, stored as a count of cents (`cents c` is the value `c / 100`), or a
quiet NaN. -/
inductive PyNum where
  | cents (c : ℤ)
  | nan
deriving DecidableEq

/-- Away-from-zero rounding of `n / d` to an integer, for `d > 0`
(`ROUND_UP`). -/
def quantCents (n d : ℤ) : ℤ :=
  if 0 ≤ n then cdivZ n d else -(cdivZ (-n) d)

/-- Python `Decimal(str(x)).quantize(Decimal(".01"), rounding=ROUND_UP)`:
`str` round-trips the value exactly, quantize rounds the value away from
zero to a multiple of `0.01` and raises `InvalidOperation` when the
resulting coefficient needs more than 28 digits, or when `x` is infinite; a
quiet NaN propagates. -/
def quantizeUp : PyDec → Except PyErr PyNum
  | .finite c e =>
    let cents := if 0 ≤ e + 2 then c * zpow10 (e + 2).toNat
                 else quantCents c (zpow10 (-(e + 2)).toNat)
    if cents.natAbs < pow10 28 then .ok (.cents cents) else .error .invalidOperation
  | .nan => .ok .nan
  | _ => .error .invalidOperation

/-- Python `str.split("/")`. -/
def splitOnSlash : List Char → List (List Char)
  | [] => [[]]
  | c :: t =>
    if c = '/' then [] :: splitOnSlash t
    else
      match splitOnSlash t with
      | [] => [[c]]
      | h :: r => (c :: h) :: r

/-- The loader's `_parse_number`:

    num, denum = numstring.split("/")
    amount_dec = decimal.Decimal(num) / decimal.Decimal(denum)
    amount_dec = decimal.Decimal(str(amount_dec)).quantize(
        decimal.Decimal('.01'), rounding=decimal.ROUND_UP)
    return amount_dec

The 2-tuple unpacking raises `ValueError` unless the split yields exactly
two parts; each `Decimal` constructor raises `InvalidOperation` on a
string outside the numeric grammar. -/
def parseNumberChars (l : List Char) : Except PyErr PyNum :=
  match splitOnSlash l with
  | [nums, denums] =>
    match decOfChars nums with
    | none => .error .invalidOperation
    | some a =>
      match decOfChars denums with
      | none => .error .invalidOperation
      | some b =>
        match decDiv a b with
        | .error err => .error err
        | .ok v => quantizeUp v
  | _ => .error .valueError

/-- `_parse_number` on a Python string. -/
def parse_number (s : String) : Except PyErr PyNum := parseNumberChars s.data

/-! ## Canonical integer strings -/

/-- Big-endian digit characters of `n` (without the `n = 0` special case),
fuel-driven for structural recursion. -/
def natCharsAux : ℕ → ℕ → List Char
  | 0, _ => []
  | f + 1, n => if n = 0 then [] else natCharsAux f (n / 10) ++ [digitChar (n % 10)]

/-- The canonical decimal string of a natural number. -/
def natChars (n : ℕ) : List Char := if n = 0 then ['0'] else natCharsAux (n + 1) n

/-- The canonical decimal string of an integer (with a leading `-` when
negative). -/
def intChars (n : ℤ) : List Char :=
  if n < 0 then '-' :: natChars n.natAbs else natChars n.natAbs

/-! ## Arithmetic helper lemmas -/

theorem pow10_succ (k : ℕ) : pow10 (k + 1) = 10 * pow10 k := by
  simp [pow10, pow_succ, Nat.mul_comm]

theorem pow10_pos (k : ℕ) : 0 < pow10 k := Nat.pos_pow_of_pos k (by norm_num)

theorem digLenAux_zero (f : ℕ) : digLenAux f 0 = 0 := by
  cases f <;> simp [digLenAux]

theorem digLenAux_fuel_bounds :
    ∀ f n : ℕ, 0 < n → n ≤ f →
      pow10 (digLenAux f n - 1) ≤ n ∧ n < pow10 (digLenAux f n) := by
  intro f
  induction f with
  | zero => intro n h1 h2; omega
  | succ f ih =>
    intro n h1 h2
    rw [digLenAux, if_neg (by omega)]
    by_cases hn : n < 10
    · have h10 : n / 10 = 0 := by omega
      rw [h10, digLenAux_zero]
      simp [pow10]
      omega
    · have hq : 0 < n / 10 := by omega
      have hqf : n / 10 ≤ f := by
        have := Nat.div_lt_self h1 (by norm_num : 1 < 10)
        omega
      obtain ⟨lo, hi⟩ := ih (n / 10) hq hqf
      have hL : 1 ≤ digLenAux f (n / 10) := by
        by_contra h
        have : digLenAux f (n / 10) = 0 := by omega
        rw [this] at hi
        simp [pow10] at hi
        omega
      constructor
      · have : pow10 (digLenAux f (n / 10) + 1 - 1) = 10 * pow10 (digLenAux f (n / 10) - 1) := by
          have h2 : digLenAux f (n / 10) + 1 - 1 = (digLenAux f (n / 10) - 1) + 1 := by omega
          rw [h2, pow10_succ]
        rw [this]
        have hmul : 10 * (n / 10) ≤ n := by omega
        calc 10 * pow10 (digLenAux f (n / 10) - 1) ≤ 10 * (n / 10) := by
              exact Nat.mul_le_mul_left 10 lo
          _ ≤ n := hmul
      · rw [pow10_succ]
        have := Nat.div_add_mod n 10
        have hmod : n % 10 < 10 := Nat.mod_lt n (by norm_num)
        calc n = 10 * (n / 10) + n % 10 := by omega
          _ < 10 * (n / 10) + 10 := by omega
          _ = 10 * (n / 10 + 1) := by ring
          _ ≤ 10 * pow10 (digLenAux f (n / 10)) := by
              exact Nat.mul_le_mul_left 10 (by omega)

theorem digLen_bounds (n : ℕ) (h : 0 < n) :
    pow10 (digLen n - 1) ≤ n ∧ n < pow10 (digLen n) :=
  digLenAux_fuel_bounds (n + 1) n h (by omega)

/-! ## Digit character facts -/

theorem digitChar_spec (k : ℕ) (h : k < 10) :
    isDigitChar (digitChar k) = true ∧ lcChar (digitChar k) = digitChar k ∧
    digitVal (digitChar k) = k ∧ isPyWs (digitChar k) = false ∧
    digitChar k ≠ '-' ∧ digitChar k ≠ '+' ∧ digitChar k ≠ '_' ∧
    digitChar k ≠ '/' ∧ digitChar k ≠ '.' ∧
    lcChar (digitChar k) ≠ 'i' ∧ lcChar (digitChar k) ≠ 's' ∧
    lcChar (digitChar k) ≠ 'n' ∧ lcChar (digitChar k) ≠ 'e' := by
  interval_cases k <;> exact (by decide)

/-! ## Digit string lemmas -/

theorem natCharsAux_mem :
    ∀ f n c, c ∈ natCharsAux f n → ∃ k, k < 10 ∧ c = digitChar k := by
  intro f
  induction f with
  | zero => intro n c h; simp [natCharsAux] at h
  | succ f ih =>
    intro n c h
    rw [natCharsAux] at h
    by_cases hn : n = 0
    · simp [hn] at h
    · rw [if_neg hn] at h
      rcases List.mem_append.mp h with h1 | h2
      · exact ih _ _ h1
      · refine ⟨n % 10, Nat.mod_lt n (by norm_num), ?_⟩
        simpa using h2

theorem natChars_mem (n : ℕ) :
    ∀ c ∈ natChars n, ∃ k, k < 10 ∧ c = digitChar k := by
  intro c h
  rw [natChars] at h
  by_cases hn : n = 0
  · rw [if_pos hn] at h
    exact ⟨0, by norm_num, by simpa using h⟩
  · rw [if_neg hn] at h
    exact natCharsAux_mem _ _ _ h

theorem natCharsAux_foldl :
    ∀ f n, n ≤ f → ∀ a : ℕ,
      (natCharsAux f n).foldl (fun x c => 10 * x + digitVal c) a =
        a * pow10 (natCharsAux f n).length + n := by
  intro f
  induction f with
  | zero => intro n h a; interval_cases n; simp [natCharsAux, pow10]
  | succ f ih =>
    intro n h a
    rw [natCharsAux]
    by_cases hn : n = 0
    · simp [hn, pow10]
    · rw [if_neg hn]
      have hq : n / 10 ≤ f := by
        have := Nat.div_lt_self (by omega : 0 < n) (by norm_num : 1 < 10)
        omega
      rw [List.foldl_append, ih (n / 10) hq a]
      have hv : digitVal (digitChar (n % 10)) = n % 10 :=
        (digitChar_spec (n % 10) (Nat.mod_lt n (by norm_num))).2.2.1
      simp only [List.foldl_cons, List.foldl_nil, List.length_append,
        List.length_cons, List.length_nil, hv]
      rw [pow10_succ]
      have := Nat.div_add_mod n 10
      ring_nf
      omega

theorem digitsToNat_natChars (n : ℕ) : digitsToNat (natChars n) = n := by
  rw [natChars]
  by_cases hn : n = 0
  · simp [hn, digitsToNat, digitVal, digitChar]
  · rw [if_neg hn, digitsToNat, natCharsAux_foldl (n + 1) n (by omega) 0]
    simp

theorem natChars_ne_nil (n : ℕ) : natChars n ≠ [] := by
  rw [natChars]
  by_cases hn : n = 0
  · simp [hn]
  · rw [if_neg hn, natCharsAux, if_neg hn]
    simp

/-! ## List scanning helpers -/

theorem takeWhile_all {p : Char → Bool} :
    ∀ l : List Char, (∀ c ∈ l, p c = true) → l.takeWhile p = l := by
  intro l h
  induction l with
  | nil => simp
  | cons a t ih =>
    rw [List.takeWhile_cons, h a (by simp)]
    simp [ih fun c hc => h c (by simp [hc])]

theorem dropWhile_all {p : Char → Bool} :
    ∀ l : List Char, (∀ c ∈ l, p c = true) → l.dropWhile p = [] := by
  intro l h
  induction l with
  | nil => simp
  | cons a t ih =>
    rw [List.dropWhile_cons, h a (by simp)]
    simp [ih fun c hc => h c (by simp [hc])]

theorem dropWhile_id {p : Char → Bool} :
    ∀ l : List Char, (∀ c ∈ l, p c = false) → l.dropWhile p = l := by
  intro l h
  cases l with
  | nil => simp
  | cons a t => rw [List.dropWhile_cons, h a (by simp)]; simp

theorem trimChars_id (l : List Char) (h : ∀ c ∈ l, isPyWs c = false) :
    trimChars l = l := by
  rw [trimChars, dropWhile_id l h, dropWhile_id l.reverse
    (fun c hc => h c (List.mem_reverse.mp hc)), List.reverse_reverse]

theorem stripUnderscores_id (l : List Char) (h : ∀ c ∈ l, c ≠ '_') :
    stripUnderscores l = l := by
  rw [stripUnderscores, List.filter_eq_self.mpr]
  intro a ha
  simpa using h a ha

/-! ## Decimal grammar round-trip for canonical integer strings -/

theorem matchCI_cons_ne (p : Char) (ps : List Char) (c : Char) (cs : List Char)
    (h : lcChar c ≠ p) : matchCI (p :: ps) (c :: cs) = none := by
  simp [matchCI, h]

theorem readFinite_digits (l : List Char) (hne : l ≠ [])
    (hd : ∀ c ∈ l, isDigitChar c = true) :
    readFinite l = some ((digitsToNat l : ℤ), 0) := by
  simp only [readFinite, takeWhile_all l hd, dropWhile_all l hd]
  simp [hne, readExp]

theorem natChars_digit_facts (m : ℕ) :
    ∀ c ∈ natChars m, isDigitChar c = true ∧ isPyWs c = false ∧ c ≠ '_' ∧
      c ≠ '-' ∧ c ≠ '+' ∧ c ≠ '/' ∧ lcChar c ≠ 'i' ∧ lcChar c ≠ 's' ∧
      lcChar c ≠ 'n' := by
  intro c hc
  obtain ⟨k, hk, rfl⟩ := natChars_mem m c hc
  obtain ⟨h1, _, _, h4, h5, h6, h7, h8, _, h10, h11, h12, _⟩ := digitChar_spec k hk
  exact ⟨h1, h4, h7, h5, h6, h8, h10, h11, h12⟩

theorem decOfChars_digits (l : List Char) (hne : l ≠ [])
    (h : ∀ c ∈ l, isDigitChar c = true ∧ isPyWs c = false ∧ c ≠ '_' ∧
      c ≠ '-' ∧ c ≠ '+' ∧ c ≠ '/' ∧ lcChar c ≠ 'i' ∧ lcChar c ≠ 's' ∧
      lcChar c ≠ 'n') :
    decOfChars l = some (.finite (digitsToNat l : ℤ) 0) := by
  obtain ⟨c, t, rfl⟩ := List.exists_cons_of_ne_nil hne
  have htrim : trimChars (c :: t) = c :: t :=
    trimChars_id _ fun x hx => (h x hx).2.1
  have hstrip : stripUnderscores (c :: t) = c :: t :=
    stripUnderscores_id _ fun x hx => (h x hx).2.2.1
  have hne2 : (c :: t) ≠ [] := hne
  have hsign : readSign (c :: t) = (false, c :: t) := by
    rw [readSign, if_neg (h c (by simp)).2.2.2.1, if_neg (h c (by simp)).2.2.2.2.1]
  rw [decOfChars, htrim, hstrip, hsign,
    matchCI_cons_ne 'i' _ c t (h c (by simp)).2.2.2.2.2.2.1,
    matchCI_cons_ne 's' _ c t (h c (by simp)).2.2.2.2.2.2.2.1,
    matchCI_cons_ne 'n' _ c t (h c (by simp)).2.2.2.2.2.2.2.2,
    readFinite_digits (c :: t) hne fun x hx => (h x hx).1]
  simp

theorem decOfChars_natChars (m : ℕ) :
    decOfChars (natChars m) = some (.finite (m : ℤ) 0) := by
  rw [decOfChars_digits (natChars m) (natChars_ne_nil m) (natChars_digit_facts m),
    digitsToNat_natChars]

theorem decOfChars_intChars (n : ℤ) :
    decOfChars (intChars n) = some (.finite n 0) := by
  rw [intChars]
  by_cases hn : n < 0
  · rw [if_pos hn]
    have hws : ∀ c ∈ ('-' :: natChars n.natAbs), isPyWs c = false := by
      intro c hc
      rcases List.mem_cons.mp hc with rfl | hc
      · decide
      · exact (natChars_digit_facts _ c hc).2.1
    have hus : ∀ c ∈ ('-' :: natChars n.natAbs), c ≠ '_' := by
      intro c hc
      rcases List.mem_cons.mp hc with rfl | hc
      · decide
      · exact (natChars_digit_facts _ c hc).2.2.1
    have hsign : readSign ('-' :: natChars n.natAbs) = (true, natChars n.natAbs) := by
      rw [readSign]; simp
    obtain ⟨c, t, hct⟩ := List.exists_cons_of_ne_nil (natChars_ne_nil n.natAbs)
    have hfacts := natChars_digit_facts n.natAbs
    rw [hct] at hfacts
    have habs : ((n.natAbs : ℕ) : ℤ) = -n := by omega
    have e1 : stripUnderscores (trimChars ('-' :: natChars n.natAbs)) =
        '-' :: natChars n.natAbs := by
      rw [trimChars_id _ hws, stripUnderscores_id _ hus]
    rw [decOfChars, e1, hsign, hct,
      matchCI_cons_ne 'i' _ c t (hfacts c (by simp)).2.2.2.2.2.2.1,
      matchCI_cons_ne 's' _ c t (hfacts c (by simp)).2.2.2.2.2.2.2.1,
      matchCI_cons_ne 'n' _ c t (hfacts c (by simp)).2.2.2.2.2.2.2.2,
      readFinite_digits (c :: t) (by simp) fun x hx => (hfacts x hx).1,
      ← hct, digitsToNat_natChars, habs]
    simp
  · rw [if_neg hn, decOfChars_natChars]
    have : ((n.natAbs : ℕ) : ℤ) = n := by omega
    rw [this]

/-! ## splitOnSlash lemmas -/

theorem splitOnSlash_no_slash (a : List Char) (h : ∀ c ∈ a, c ≠ '/') :
    splitOnSlash a = [a] := by
  induction a with
  | nil => rfl
  | cons c t ih =>
    rw [splitOnSlash, if_neg (h c (by simp)), ih fun x hx => h x (by simp [hx])]

theorem splitOnSlash_mid (a b : List Char) (h : ∀ c ∈ a, c ≠ '/') :
    splitOnSlash (a ++ '/' :: b) = a :: splitOnSlash b := by
  induction a with
  | nil => simp [splitOnSlash]
  | cons c t ih =>
    have hih := ih fun x hx => h x (by simp [hx])
    rw [List.cons_append, splitOnSlash, if_neg (h c (by simp)), hih]

/-! ## Rational-valued semantics of the decimal model -/

/-- Value of a decimal coefficient/exponent pair as a rational. -/
def decVal (c e : ℤ) : ℚ := (c : ℚ) * (10 : ℚ) ^ e

/-- Exact away-from-zero (`ROUND_UP`) quantization of a rational value to a
whole number of cents.  This is the quantity the specification describes:
the exact rational value quantized to two decimal places, rounding away
from zero. -/
def exactCents (q : ℚ) : ℤ := if 0 ≤ q then ⌈100 * q⌉ else -⌈100 * -q⌉

theorem zpow10_pos (k : ℕ) : 0 < zpow10 k := by
  have := pow10_pos k
  simp [zpow10]
  omega

theorem zpow10_cast (k : ℕ) : ((zpow10 k : ℤ) : ℚ) = (10 : ℚ) ^ (k : ℤ) := by
  rw [zpow10, pow10]
  push_cast
  rw [zpow_natCast]

theorem intCast_ediv (N D : ℤ) (hD : 0 < D) :
    ((N / D : ℤ) : ℚ) = (⌊(N : ℚ) / (D : ℚ)⌋ : ℤ) := by
  have h1 : ((D.toNat : ℕ) : ℤ) = D := Int.toNat_of_nonneg (le_of_lt hD)
  have h2 := Rat.floor_intCast_div_natCast N D.toNat
  rw [← h1]
  push_cast at h2 ⊢
  rw [h2]

theorem cdivZ_eq_ceil (N D : ℤ) (hD : 0 < D) :
    cdivZ N D = ⌈(N : ℚ) / (D : ℚ)⌉ := by
  have h2 := intCast_ediv (-N) D hD
  have h : ((-N : ℤ) : ℚ) / (D : ℚ) = -((N : ℚ) / (D : ℚ)) := by push_cast; ring
  rw [h, Int.floor_neg] at h2
  have h3 : ((-N) / D : ℤ) = -⌈(N : ℚ) / (D : ℚ)⌉ := by exact_mod_cast h2
  rw [cdivZ, h3, neg_neg]

theorem rneInt_exact (N D k : ℤ) (hD : 0 < D) (h : N = k * D) : rneInt N D = k := by
  have hdiv : N / D = k := by
    rw [h, Int.mul_ediv_cancel _ (ne_of_gt hD)]
  rw [rneInt]
  simp only [hdiv]
  have : N - k * D = 0 := by omega
  rw [this]
  simp [hD]

theorem rneInt_half (N D : ℤ) (hD : 0 < D) :
    |(rneInt N D : ℚ) - (N : ℚ) / (D : ℚ)| ≤ 1 / 2 := by
  set f := N / D with hf
  have hmod : N - f * D = N % D := by
    rw [hf, Int.emod_def]; ring
  set r := N % D with hr
  have hr0 : 0 ≤ r := Int.emod_nonneg N (ne_of_gt hD)
  have hrD : r < D := Int.emod_lt_of_pos N hD
  have hNfr : N = D * f + r := by rw [hf, hr]; exact (Int.ediv_add_emod N D).symm
  have hD' : (0 : ℚ) < (D : ℚ) := by exact_mod_cast hD
  have hval : (N : ℚ) / (D : ℚ) = (f : ℚ) + (r : ℚ) / (D : ℚ) := by
    field_simp
    push_cast [hNfr]
    ring
  rw [rneInt]
  simp only [← hf, hmod, ← hr]
  have habs1 : |(f : ℚ) - (N : ℚ) / (D : ℚ)| = (r : ℚ) / (D : ℚ) := by
    rw [hval]
    rw [abs_sub_comm]
    rw [show (f : ℚ) + (r : ℚ) / (D : ℚ) - (f : ℚ) = (r : ℚ) / (D : ℚ) by ring]
    exact abs_of_nonneg (by positivity)
  have habs2 : |((f + 1 : ℤ) : ℚ) - (N : ℚ) / (D : ℚ)| = ((D : ℚ) - (r : ℚ)) / (D : ℚ) := by
    rw [hval]
    push_cast
    rw [show (f : ℚ) + 1 - ((f : ℚ) + (r : ℚ) / (D : ℚ)) = 1 - (r : ℚ) / (D : ℚ) by ring]
    rw [abs_of_nonneg]
    · field_simp
    · rw [sub_nonneg, div_le_one hD']
      exact_mod_cast le_of_lt hrD
  by_cases h1 : 2 * r < D
  · rw [if_pos h1, habs1, div_le_div_iff hD' (by norm_num)]
    push_cast
    exact_mod_cast by nlinarith [h1]
  · rw [if_neg h1]
    by_cases h2 : D < 2 * r
    · rw [if_pos h2]
      push_cast
      rw [show ((f : ℚ) + 1) = ((f + 1 : ℤ) : ℚ) by push_cast; ring, habs2,
        div_le_div_iff hD' (by norm_num)]
      exact_mod_cast by nlinarith [h2]
    · have heq : 2 * r = D := by omega
      rw [if_neg h2]
      by_cases h3 : f % 2 = 0
      · rw [if_pos h3, habs1, div_le_div_iff hD' (by norm_num)]
        exact_mod_cast by nlinarith [heq]
      · rw [if_neg h3]
        push_cast
        rw [show ((f : ℚ) + 1) = ((f + 1 : ℤ) : ℚ) by push_cast; ring, habs2,
          div_le_div_iff hD' (by norm_num)]
        exact_mod_cast by nlinarith [heq]

theorem digLen_pos (n : ℕ) (h : 0 < n) : 0 < digLen n := by
  by_contra hc
  have h0 : digLen n = 0 := by omega
  have := (digLen_bounds n h).2
  rw [h0] at this
  simp [pow10] at this
  omega

theorem floorLog10_bounds (n d : ℤ) (hn : 0 < n) (hd : 0 < d) :
    (10 : ℚ) ^ floorLog10 n d ≤ (n : ℚ) / (d : ℚ) ∧
      (n : ℚ) / (d : ℚ) < (10 : ℚ) ^ (floorLog10 n d + 1) := by
  have hd' : (0 : ℚ) < (d : ℚ) := by exact_mod_cast hd
  have hn' : (0 : ℚ) < (n : ℚ) := by exact_mod_cast hn
  set a := digLen n.natAbs with ha
  set b := digLen d.natAbs with hb
  have hna : (n.natAbs : ℤ) = n := by omega
  have hda : (d.natAbs : ℤ) = d := by omega
  obtain ⟨halo, hahi⟩ := digLen_bounds n.natAbs (by omega)
  obtain ⟨hblo, hbhi⟩ := digLen_bounds d.natAbs (by omega)
  rw [← ha] at halo hahi
  rw [← hb] at hblo hbhi
  have ha1 : 1 ≤ a := digLen_pos n.natAbs (by omega)
  have hb1 : 1 ≤ b := digLen_pos d.natAbs (by omega)
  -- bounds as rationals
  have hnlo : (10 : ℚ) ^ ((a : ℤ) - 1) ≤ (n : ℚ) := by
    have h1 : zpow10 (a - 1) ≤ n := by rw [zpow10]; omega
    have h2 : ((zpow10 (a - 1) : ℤ) : ℚ) ≤ (n : ℚ) := by exact_mod_cast h1
    rw [zpow10_cast] at h2
    rwa [show ((a - 1 : ℕ) : ℤ) = (a : ℤ) - 1 by omega] at h2
  have hnhi : (n : ℚ) < (10 : ℚ) ^ (a : ℤ) := by
    have h1 : n < zpow10 a := by rw [zpow10]; omega
    have h2 : (n : ℚ) < ((zpow10 a : ℤ) : ℚ) := by exact_mod_cast h1
    rwa [zpow10_cast] at h2
  have hdlo : (10 : ℚ) ^ ((b : ℤ) - 1) ≤ (d : ℚ) := by
    have h1 : zpow10 (b - 1) ≤ d := by rw [zpow10]; omega
    have h2 : ((zpow10 (b - 1) : ℤ) : ℚ) ≤ (d : ℚ) := by exact_mod_cast h1
    rw [zpow10_cast] at h2
    rwa [show ((b - 1 : ℕ) : ℤ) = (b : ℤ) - 1 by omega] at h2
  have hdhi : (d : ℚ) < (10 : ℚ) ^ (b : ℤ) := by
    have h1 : d < zpow10 b := by rw [zpow10]; omega
    have h2 : (d : ℚ) < ((zpow10 b : ℤ) : ℚ) := by exact_mod_cast h1
    rwa [zpow10_cast] at h2
  have hten : (0 : ℚ) < 10 := by norm_num
  set e0 : ℤ := (a : ℤ) - (b : ℤ) with he0
  -- strict sandwich: 10^(e0-1) < n/d < 10^(e0+1)
  have hqlo : (10 : ℚ) ^ (e0 - 1) < (n : ℚ) / (d : ℚ) := by
    rw [lt_div_iff hd']
    calc (10 : ℚ) ^ (e0 - 1) * (d : ℚ) < (10 : ℚ) ^ (e0 - 1) * (10 : ℚ) ^ (b : ℤ) := by
          exact mul_lt_mul_of_pos_left hdhi (by positivity)
      _ = (10 : ℚ) ^ ((a : ℤ) - 1) := by
          rw [← zpow_add₀ (by norm_num : (10 : ℚ) ≠ 0)]
          congr 1
          omega
      _ ≤ (n : ℚ) := hnlo
  have hqhi : (n : ℚ) / (d : ℚ) < (10 : ℚ) ^ (e0 + 1) := by
    rw [div_lt_iff hd']
    calc (n : ℚ) < (10 : ℚ) ^ (a : ℤ) := hnhi
      _ = (10 : ℚ) ^ (e0 + 1) * (10 : ℚ) ^ ((b : ℤ) - 1) := by
          rw [← zpow_add₀ (by norm_num : (10 : ℚ) ≠ 0)]
          congr 1
          omega
      _ ≤ (10 : ℚ) ^ (e0 + 1) * (d : ℚ) := by
          exact mul_le_mul_of_nonneg_left hdlo (by positivity)
  -- the branch test in floorLog10 decides whether 10^e0 ≤ n/d
  have h10 : (0 : ℚ) < (10 : ℚ) ^ e0 := by positivity
  have htest : (if 0 ≤ e0 then d * zpow10 e0.toNat ≤ n else d ≤ n * zpow10 (-e0).toNat) ↔
      (10 : ℚ) ^ e0 ≤ (n : ℚ) / (d : ℚ) := by
    rw [le_div_iff hd']
    by_cases hs : 0 ≤ e0
    · rw [if_pos hs]
      have EQN : ((d * zpow10 e0.toNat : ℤ) : ℚ) = (10 : ℚ) ^ e0 * (d : ℚ) := by
        push_cast [zpow10_cast]
        rw [show ((e0.toNat : ℕ) : ℤ) = e0 by omega]
        ring
      constructor
      · intro h1
        rw [← EQN]
        exact_mod_cast h1
      · intro h1
        rw [← EQN] at h1
        exact_mod_cast h1
    · rw [if_neg hs]
      have EQN : ((n * zpow10 (-e0).toNat : ℤ) : ℚ) = (n : ℚ) * (10 : ℚ) ^ (-e0) := by
        push_cast [zpow10_cast]
        rw [show (((-e0).toNat : ℕ) : ℤ) = -e0 by omega]
      have hiff : (d : ℚ) ≤ (n : ℚ) * (10 : ℚ) ^ (-e0) ↔
          (10 : ℚ) ^ e0 * (d : ℚ) ≤ (n : ℚ) := by
        rw [← mul_le_mul_right h10, mul_assoc, ← zpow_add₀ (by norm_num : (10 : ℚ) ≠ 0),
          neg_add_cancel, zpow_zero, mul_one, mul_comm ((10 : ℚ) ^ e0) (d : ℚ)]
      rw [← hiff, ← EQN]
      constructor
      · intro h1; exact_mod_cast h1
      · intro h1; exact_mod_cast h1
  rw [floorLog10]
  simp only [← ha, ← hb, ← he0]
  by_cases hs : 0 ≤ e0
  · rw [if_pos hs]
    by_cases hc : d * zpow10 e0.toNat ≤ n
    · rw [if_pos hc]
      have := htest.mp (by rw [if_pos hs]; exact hc)
      exact ⟨this, hqhi⟩
    · rw [if_neg hc]
      have hlt : ¬ ((10 : ℚ) ^ e0 ≤ (n : ℚ) / (d : ℚ)) := fun hcon =>
        hc (by have := htest.mpr hcon; rwa [if_pos hs] at this)
      refine ⟨le_of_lt hqlo, ?_⟩
      rw [show e0 - 1 + 1 = e0 by ring]
      exact lt_of_not_le hlt
  · rw [if_neg hs]
    by_cases hc : d ≤ n * zpow10 (-e0).toNat
    · rw [if_pos hc]
      have := htest.mp (by rw [if_neg hs]; exact hc)
      exact ⟨this, hqhi⟩
    · rw [if_neg hc]
      have hlt : ¬ ((10 : ℚ) ^ e0 ≤ (n : ℚ) / (d : ℚ)) := fun hcon =>
        hc (by have := htest.mpr hcon; rwa [if_neg hs] at this)
      refine ⟨le_of_lt hqlo, ?_⟩
      rw [show e0 - 1 + 1 = e0 by ring]
      exact lt_of_not_le hlt

theorem rne_branch (N D : ℤ) (t : ℚ) (hDpos : 0 < D) (hND : (N : ℚ) / (D : ℚ) = t)
    (ht27 : (10 : ℚ) ^ (27 : ℤ) ≤ t) :
    0 < rneInt N D ∧ |(rneInt N D : ℚ) - t| ≤ 1 / 2 ∧
      ∀ k : ℤ, (k : ℚ) = t → rneInt N D = k := by
  have hD' : (0 : ℚ) < (D : ℚ) := by exact_mod_cast hDpos
  have hhalf := rneInt_half N D hDpos
  rw [hND] at hhalf
  have h127 : (1 : ℚ) ≤ (10 : ℚ) ^ (27 : ℤ) := by
    rw [show ((27 : ℤ)) = ((27 : ℕ) : ℤ) by norm_num, zpow_natCast]
    norm_num
  refine ⟨?_, hhalf, ?_⟩
  · have h1 := (abs_le.mp hhalf).1
    have h2 : (0 : ℚ) < (rneInt N D : ℚ) := by linarith
    exact_mod_cast h2
  · intro k hk
    apply rneInt_exact N D k hDpos
    have h2 : (k : ℚ) * (D : ℚ) = (N : ℚ) := by
      rw [hk, ← hND]
      field_simp
    exact_mod_cast h2.symm

theorem rhe28pos_spec (n d : ℤ) (hn : 0 < n) (hd : 0 < d) :
    (rhe28pos n d).2 = floorLog10 n d - 27 ∧ 0 < (rhe28pos n d).1 ∧
      |((rhe28pos n d).1 : ℚ) -
          ((n : ℚ) / (d : ℚ)) * (10 : ℚ) ^ (27 - floorLog10 n d)| ≤ 1 / 2 ∧
      ∀ k : ℤ, (k : ℚ) = ((n : ℚ) / (d : ℚ)) * (10 : ℚ) ^ (27 - floorLog10 n d) →
        (rhe28pos n d).1 = k := by
  have hd' : (0 : ℚ) < (d : ℚ) := by exact_mod_cast hd
  have hten : (10 : ℚ) ≠ 0 := by norm_num
  set e := floorLog10 n d with he
  set t : ℚ := ((n : ℚ) / (d : ℚ)) * (10 : ℚ) ^ (27 - e) with htdef
  obtain ⟨hlo, hhi⟩ := floorLog10_bounds n d hn hd
  rw [← he] at hlo hhi
  have ht27 : (10 : ℚ) ^ (27 : ℤ) ≤ t := by
    rw [htdef]
    calc (10 : ℚ) ^ (27 : ℤ) = (10 : ℚ) ^ e * (10 : ℚ) ^ (27 - e) := by
          rw [← zpow_add₀ hten]
          congr 1
          ring
      _ ≤ ((n : ℚ) / (d : ℚ)) * (10 : ℚ) ^ (27 - e) :=
          mul_le_mul_of_nonneg_right hlo (by positivity)
  rw [rhe28pos]
  simp only [← he]
  by_cases hs : 0 ≤ e - 27
  · rw [if_pos hs]
    have hDpos : 0 < d * zpow10 (e - 27).toNat := mul_pos hd (zpow10_pos _)
    have hDq : ((d * zpow10 (e - 27).toNat : ℤ) : ℚ) = (d : ℚ) * (10 : ℚ) ^ (e - 27) := by
      push_cast [zpow10_cast]
      rw [show (((e - 27).toNat : ℕ) : ℤ) = e - 27 by omega]
    have hz : (10 : ℚ) ^ (27 - e) * (10 : ℚ) ^ (e - 27) = 1 := by
      rw [← zpow_add₀ hten]
      norm_num
    have hmul : t * ((d * zpow10 (e - 27).toNat : ℤ) : ℚ) = (n : ℚ) := by
      rw [htdef, hDq]
      calc (n : ℚ) / (d : ℚ) * (10 : ℚ) ^ (27 - e) * ((d : ℚ) * (10 : ℚ) ^ (e - 27))
          = (n : ℚ) / (d : ℚ) * (d : ℚ) * ((10 : ℚ) ^ (27 - e) * (10 : ℚ) ^ (e - 27)) := by
            ring
        _ = (n : ℚ) / (d : ℚ) * (d : ℚ) := by rw [hz, mul_one]
        _ = (n : ℚ) := div_mul_cancel₀ _ (ne_of_gt hd')
    have hDne : ((d * zpow10 (e - 27).toNat : ℤ) : ℚ) ≠ 0 := by
      exact_mod_cast ne_of_gt hDpos
    have hND : ((n : ℤ) : ℚ) / ((d * zpow10 (e - 27).toNat : ℤ) : ℚ) = t := by
      rw [← hmul, mul_div_assoc, div_self hDne, mul_one]
    obtain ⟨hp, hh, hex⟩ := rne_branch n (d * zpow10 (e - 27).toNat) t hDpos hND ht27
    exact ⟨trivial, hp, hh, hex⟩
  · rw [if_neg hs]
    have hNq : ((n * zpow10 (27 - e).toNat : ℤ) : ℚ) = (n : ℚ) * (10 : ℚ) ^ (27 - e) := by
      push_cast [zpow10_cast]
      rw [show (((27 - e).toNat : ℕ) : ℤ) = 27 - e by omega]
    have hND : ((n * zpow10 (27 - e).toNat : ℤ) : ℚ) / ((d : ℤ) : ℚ) = t := by
      rw [hNq, htdef]
      ring
    obtain ⟨hp, hh, hex⟩ := rne_branch (n * zpow10 (27 - e).toNat) d t hd hND ht27
    exact ⟨trivial, hp, hh, hex⟩

theorem decVal_close (n d : ℤ) (hn : 0 < n) (hd : 0 < d) :
    0 < (rhe28pos n d).1 ∧
      |decVal (rhe28pos n d).1 (rhe28pos n d).2 - (n : ℚ) / (d : ℚ)| ≤
        ((n : ℚ) / (d : ℚ)) / (2 * (10 : ℚ) ^ (27 : ℤ)) := by
  have hten : (10 : ℚ) ≠ 0 := by norm_num
  obtain ⟨he2, hpos, hhalf, _⟩ := rhe28pos_spec n d hn hd
  obtain ⟨hlo, _⟩ := floorLog10_bounds n d hn hd
  set e := floorLog10 n d with he
  set q : ℚ := (n : ℚ) / (d : ℚ) with hq
  set c := (rhe28pos n d).1 with hc
  refine ⟨hpos, ?_⟩
  rw [decVal, he2]
  have hveq : (c : ℚ) * (10 : ℚ) ^ (e - 27) - q =
      ((c : ℚ) - q * (10 : ℚ) ^ (27 - e)) * (10 : ℚ) ^ (e - 27) := by
    have hz : (10 : ℚ) ^ (27 - e) * (10 : ℚ) ^ (e - 27) = 1 := by
      rw [← zpow_add₀ hten]
      norm_num
    calc (c : ℚ) * (10 : ℚ) ^ (e - 27) - q
        = (c : ℚ) * (10 : ℚ) ^ (e - 27) - q * ((10 : ℚ) ^ (27 - e) * (10 : ℚ) ^ (e - 27)) := by
          rw [hz, mul_one]
      _ = ((c : ℚ) - q * (10 : ℚ) ^ (27 - e)) * (10 : ℚ) ^ (e - 27) := by ring
  rw [hveq, abs_mul, abs_of_pos (a := (10 : ℚ) ^ (e - 27)) (by positivity)]
  have hb1 : |(c : ℚ) - q * (10 : ℚ) ^ (27 - e)| * (10 : ℚ) ^ (e - 27) ≤
      (1 / 2) * (10 : ℚ) ^ (e - 27) :=
    mul_le_mul_of_nonneg_right hhalf (by positivity)
  refine le_trans hb1 ?_
  have hsplit : (10 : ℚ) ^ (e - 27) = (10 : ℚ) ^ e / (10 : ℚ) ^ (27 : ℤ) := by
    rw [← zpow_sub₀ hten]
  rw [hsplit]
  have hrw : (1 : ℚ) / 2 * ((10 : ℚ) ^ e / (10 : ℚ) ^ (27 : ℤ)) =
      (10 : ℚ) ^ e / (2 * (10 : ℚ) ^ (27 : ℤ)) := by ring
  rw [hrw]
  gcongr

theorem decVal_exact (n d m : ℤ) (hn : 0 < n) (hd : 0 < d)
    (hm : (m : ℚ) = 100 * ((n : ℚ) / (d : ℚ)))
    (hsm : (n : ℚ) / (d : ℚ) < (10 : ℚ) ^ (26 : ℤ)) :
    decVal (rhe28pos n d).1 (rhe28pos n d).2 = (n : ℚ) / (d : ℚ) := by
  have hten : (10 : ℚ) ≠ 0 := by norm_num
  obtain ⟨he2, _, _, hexact⟩ := rhe28pos_spec n d hn hd
  obtain ⟨hlo, _⟩ := floorLog10_bounds n d hn hd
  set e := floorLog10 n d with he
  set q : ℚ := (n : ℚ) / (d : ℚ) with hq
  have he26 : e < 26 := by
    by_contra hcon
    push_neg at hcon
    have h1 : (10 : ℚ) ^ (26 : ℤ) ≤ (10 : ℚ) ^ e :=
      zpow_le_zpow_right₀ (by norm_num) hcon
    linarith [le_trans h1 hlo]
  set k : ℤ := m * zpow10 (25 - e).toNat with hk
  have hkq : (k : ℚ) = q * (10 : ℚ) ^ (27 - e) := by
    rw [hk]
    push_cast [zpow10_cast]
    rw [show (((25 - e).toNat : ℕ) : ℤ) = 25 - e by omega, hm]
    have : (100 : ℚ) = (10 : ℚ) ^ (2 : ℤ) := by norm_num
    rw [this, mul_comm ((10 : ℚ) ^ (2 : ℤ)) q, mul_assoc, ← zpow_add₀ hten]
    congr 2
    ring
  have hc := hexact k hkq
  rw [decVal, he2, hc, hkq]
  have hz : (10 : ℚ) ^ (27 - e) * (10 : ℚ) ^ (e - 27) = 1 := by
    rw [← zpow_add₀ hten]
    norm_num
  calc q * (10 : ℚ) ^ (27 - e) * (10 : ℚ) ^ (e - 27)
      = q * ((10 : ℚ) ^ (27 - e) * (10 : ℚ) ^ (e - 27)) := by ring
    _ = q := by rw [hz, mul_one]

theorem ceil_cents_eq (n d : ℤ) (hn : 0 < n) (hd : 0 < d) (hb : n < 2 * 10 ^ 25) :
    ⌈100 * decVal (rhe28pos n d).1 (rhe28pos n d).2⌉ = ⌈100 * ((n : ℚ) / (d : ℚ))⌉ := by
  have hd' : (0 : ℚ) < (d : ℚ) := by exact_mod_cast hd
  have hn' : (0 : ℚ) < (n : ℚ) := by exact_mod_cast hn
  set q : ℚ := (n : ℚ) / (d : ℚ) with hq
  have hqpos : 0 < q := by rw [hq]; positivity
  have hqd : q * (d : ℚ) = (n : ℚ) := by
    rw [hq]
    exact div_mul_cancel₀ _ (ne_of_gt hd')
  by_cases hint : ∃ m : ℤ, (m : ℚ) = 100 * q
  · obtain ⟨m, hm⟩ := hint
    have hqsm : q < (10 : ℚ) ^ (26 : ℤ) := by
      have h1 : q ≤ (n : ℚ) := by
        rw [hq]
        exact div_le_self (le_of_lt hn') (by exact_mod_cast hd)
      have h2 : (n : ℚ) < 2 * 10 ^ (25 : ℕ) := by exact_mod_cast hb
      have h3 : (2 : ℚ) * 10 ^ (25 : ℕ) < (10 : ℚ) ^ (26 : ℤ) := by
        rw [show ((26 : ℤ)) = ((26 : ℕ) : ℤ) by norm_num, zpow_natCast]
        norm_num
      linarith
    rw [decVal_exact n d m hn hd hm hqsm]
  · have hclose := (decVal_close n d hn hd).2
    rw [← hq] at hclose
    set v : ℚ := decVal (rhe28pos n d).1 (rhe28pos n d).2 with hv
    set m : ℤ := ⌊100 * q⌋ with hm
    have hmlt : (m : ℚ) < 100 * q := by
      rcases lt_or_eq_of_le (Int.floor_le (100 * q)) with h | h
      · exact h
      · exact absurd ⟨m, by rw [h]⟩ hint
    have hltm1 : 100 * q < (m : ℚ) + 1 := Int.lt_floor_add_one (100 * q)
    -- both gaps from 100*q to the neighbouring integers are at least 1/d
    have hgap1 : 1 / (d : ℚ) ≤ 100 * q - (m : ℚ) := by
      have hK : ((100 * n - m * d : ℤ) : ℚ) = (100 * q - (m : ℚ)) * (d : ℚ) := by
        rw [hq]
        push_cast
        field_simp
        ring
      have h1 : (0 : ℤ) < 100 * n - m * d := by
        have h2 : (0 : ℚ) < (100 * q - (m : ℚ)) * (d : ℚ) :=
          mul_pos (by linarith) hd'
        rw [← hK] at h2
        exact_mod_cast h2
      have h3 : (1 : ℚ) ≤ (100 * q - (m : ℚ)) * (d : ℚ) := by
        rw [← hK]
        exact_mod_cast h1
      rw [div_le_iff hd']
      linarith
    have hgap2 : 1 / (d : ℚ) ≤ (m : ℚ) + 1 - 100 * q := by
      have hK : (((m + 1) * d - 100 * n : ℤ) : ℚ) = ((m : ℚ) + 1 - 100 * q) * (d : ℚ) := by
        rw [hq]
        push_cast
        field_simp
      have h1 : (0 : ℤ) < (m + 1) * d - 100 * n := by
        have h2 : (0 : ℚ) < ((m : ℚ) + 1 - 100 * q) * (d : ℚ) :=
          mul_pos (by linarith) hd'
        rw [← hK] at h2
        exact_mod_cast h2
      have h3 : (1 : ℚ) ≤ ((m : ℚ) + 1 - 100 * q) * (d : ℚ) := by
        rw [← hK]
        exact_mod_cast h1
      rw [div_le_iff hd']
      linarith
    -- the 28-digit rounding moves 100*q by strictly less than 1/d
    have hpert : |100 * v - 100 * q| < 1 / (d : ℚ) := by
      have h1 : |100 * v - 100 * q| = 100 * |v - q| := by
        rw [show 100 * v - 100 * q = 100 * (v - q) by ring, abs_mul]
        norm_num
      have h2 : (100 : ℚ) * (q / (2 * (10 : ℚ) ^ (27 : ℤ))) = q / (2 * 10 ^ (25 : ℕ)) := by
        rw [show ((27 : ℤ)) = ((27 : ℕ) : ℤ) by norm_num, zpow_natCast,
          mul_div_assoc', div_eq_div_iff (by positivity) (by positivity)]
        ring
      have h3 : q / (2 * 10 ^ (25 : ℕ)) < 1 / (d : ℚ) := by
        rw [div_lt_div_iff (by positivity) hd', hqd]
        have : ((2 * 10 ^ 25 : ℤ) : ℚ) = 2 * 10 ^ (25 : ℕ) := by push_cast; ring
        rw [← this]
        exact_mod_cast hb
      calc |100 * v - 100 * q| = 100 * |v - q| := h1
        _ ≤ 100 * (q / (2 * (10 : ℚ) ^ (27 : ℤ))) := by linarith
        _ = q / (2 * 10 ^ (25 : ℕ)) := h2
        _ < 1 / (d : ℚ) := h3
    obtain ⟨hp1, hp2⟩ := abs_lt.mp hpert
    have hvlo : (m : ℚ) < 100 * v := by linarith
    have hvhi : 100 * v < (m : ℚ) + 1 := by linarith
    have hc1 : ⌈100 * v⌉ = m + 1 := by
      rw [Int.ceil_eq_iff]
      constructor
      · push_cast
        linarith
      · push_cast
        linarith
    have hc2 : ⌈100 * q⌉ = m + 1 := by
      rw [Int.ceil_eq_iff]
      constructor
      · push_cast
        linarith
      · push_cast
        linarith
    rw [hc1, hc2]

theorem quant_cents_formula (c e : ℤ) (hc : 0 ≤ c) :
    (if 0 ≤ e + 2 then c * zpow10 (e + 2).toNat
     else quantCents c (zpow10 (-(e + 2)).toNat)) = ⌈100 * decVal c e⌉ := by
  have hten : (10 : ℚ) ≠ 0 := by norm_num
  have h100 : (100 : ℚ) = (10 : ℚ) ^ (2 : ℤ) := by norm_num
  by_cases hs : 0 ≤ e + 2
  · rw [if_pos hs]
    have hval : 100 * decVal c e = ((c * zpow10 (e + 2).toNat : ℤ) : ℚ) := by
      rw [decVal]
      push_cast [zpow10_cast]
      rw [show (((e + 2).toNat : ℕ) : ℤ) = e + 2 by omega, zpow_add₀ hten e 2,
        show (10 : ℚ) ^ (2 : ℤ) = 100 by norm_num]
      ring
    rw [hval, Int.ceil_intCast]
  · rw [if_neg hs]
    have hkpos := zpow10_pos (-(e + 2)).toNat
    rw [quantCents, if_pos hc, cdivZ_eq_ceil c (zpow10 (-(e + 2)).toNat) hkpos]
    congr 1
    rw [decVal, zpow10_cast, show (((-(e + 2)).toNat : ℕ) : ℤ) = -(e + 2) by omega,
      div_eq_mul_inv, ← zpow_neg, neg_neg, zpow_add₀ hten e 2,
      show (10 : ℚ) ^ (2 : ℤ) = 100 by norm_num]
    ring

theorem quantizeUp_pos_ok (c e : ℤ) (hc : 0 ≤ c)
    (hb : (⌈100 * decVal c e⌉).natAbs < pow10 28) :
    quantizeUp (.finite c e) = .ok (.cents ⌈100 * decVal c e⌉) := by
  rw [quantizeUp, quant_cents_formula c e hc, if_pos hb]

theorem quantCents_neg (n d : ℤ) : quantCents (-n) d = -(quantCents n d) := by
  rcases lt_trichotomy n 0 with h | h | h
  · rw [quantCents, if_pos (by omega), quantCents, if_neg (by omega), neg_neg]
  · subst h
    simp [quantCents, cdivZ]
  · rw [quantCents, if_neg (by omega), neg_neg, quantCents, if_pos (by omega)]

theorem quantizeUp_neg_coef (c e : ℤ) (x : ℤ)
    (h : quantizeUp (.finite c e) = .ok (.cents x)) :
    quantizeUp (.finite (-c) e) = .ok (.cents (-x)) := by
  rw [quantizeUp] at h ⊢
  have hneg : (if 0 ≤ e + 2 then (-c) * zpow10 (e + 2).toNat
      else quantCents (-c) (zpow10 (-(e + 2)).toNat)) =
      -(if 0 ≤ e + 2 then c * zpow10 (e + 2).toNat
        else quantCents c (zpow10 (-(e + 2)).toNat)) := by
    by_cases hs : 0 ≤ e + 2
    · rw [if_pos hs, if_pos hs, neg_mul]
    · rw [if_neg hs, if_neg hs, quantCents_neg]
  rw [hneg]
  set A := (if 0 ≤ e + 2 then c * zpow10 (e + 2).toNat
    else quantCents c (zpow10 (-(e + 2)).toNat)) with hA
  by_cases hbb : A.natAbs < pow10 28
  · rw [if_pos hbb] at h
    have hAx : A = x := by
      have := Except.ok.inj h
      exact PyNum.cents.inj this
    rw [show (-A).natAbs = A.natAbs by omega, if_pos hbb, hAx]
  · rw [if_neg hbb] at h
    exact absurd h (by simp)

theorem exactCents_nonneg (q : ℚ) (hq : 0 ≤ q) : exactCents q = ⌈100 * q⌉ := by
  rw [exactCents, if_pos hq]

theorem exactCents_neg (q : ℚ) (hq : 0 < q) : exactCents (-q) = -(exactCents q) := by
  rw [exactCents, if_neg (by linarith), exactCents, if_pos (le_of_lt hq), neg_neg]

theorem quant_rhe28pos_ok (n d : ℤ) (hn : 0 < n) (hd : 0 < d) (hb : n < 2 * 10 ^ 25) :
    quantizeUp (.finite (rhe28pos n d).1 (rhe28pos n d).2) =
      .ok (.cents (exactCents ((n : ℚ) / (d : ℚ)))) := by
  have hd' : (0 : ℚ) < (d : ℚ) := by exact_mod_cast hd
  have hn' : (0 : ℚ) < (n : ℚ) := by exact_mod_cast hn
  have hqpos : 0 < (n : ℚ) / (d : ℚ) := by positivity
  have hcc := ceil_cents_eq n d hn hd hb
  have hcpos := (decVal_close n d hn hd).1
  -- bound on the quantized coefficient
  have hup : ⌈100 * ((n : ℚ) / (d : ℚ))⌉ ≤ 2 * 10 ^ 27 := by
    have h1 : (n : ℚ) / (d : ℚ) ≤ (n : ℚ) :=
      div_le_self (le_of_lt hn') (by exact_mod_cast hd)
    have h2 : 100 * ((n : ℚ) / (d : ℚ)) ≤ ((2 * 10 ^ 27 : ℤ) : ℚ) := by
      push_cast
      have : (n : ℚ) < 2 * 10 ^ (25 : ℕ) := by exact_mod_cast hb
      push_cast at this
      nlinarith
    calc ⌈100 * ((n : ℚ) / (d : ℚ))⌉ ≤ ⌈((2 * 10 ^ 27 : ℤ) : ℚ)⌉ := Int.ceil_le_ceil h2
      _ = 2 * 10 ^ 27 := Int.ceil_intCast _
  have hlo : 1 ≤ ⌈100 * ((n : ℚ) / (d : ℚ))⌉ := by
    have : (0 : ℚ) < 100 * ((n : ℚ) / (d : ℚ)) := by positivity
    exact Int.ceil_pos.mpr this
  have hbound : (⌈100 * decVal (rhe28pos n d).1 (rhe28pos n d).2⌉).natAbs < pow10 28 := by
    rw [hcc]
    have : pow10 28 = 10 ^ 28 := rfl
    omega
  rw [quantizeUp_pos_ok _ _ (le_of_lt hcpos) hbound, hcc,
    exactCents_nonneg _ (le_of_lt hqpos)]

theorem quant_rhe28_ok (n d : ℤ) (hd : 0 < d) (hb : n.natAbs < 2 * 10 ^ 25) :
    quantizeUp (.finite (rhe28 n d).1 (rhe28 n d).2) =
      .ok (.cents (exactCents ((n : ℚ) / (d : ℚ)))) := by
  rcases lt_trichotomy n 0 with h | h | h
  · rw [rhe28, if_neg (by omega), if_neg (by omega)]
    dsimp only
    have hd' : (0 : ℚ) < (d : ℚ) := by exact_mod_cast hd
    have hn' : (n : ℚ) < 0 := by exact_mod_cast h
    have hpos := quant_rhe28pos_ok (-n) d (by omega) hd (by omega)
    have hneg := quantizeUp_neg_coef _ _ _ hpos
    rw [hneg]
    have hq : ((-n : ℤ) : ℚ) / (d : ℚ) = -((n : ℚ) / (d : ℚ)) := by push_cast; ring
    have hqpos : 0 < -((n : ℚ) / (d : ℚ)) := by
      have hneg2 : (n : ℚ) / (d : ℚ) < 0 := div_neg_of_neg_of_pos hn' hd'
      linarith
    have key : exactCents ((n : ℚ) / (d : ℚ)) = -(exactCents (-((n : ℚ) / (d : ℚ)))) := by
      have h2 := exactCents_neg _ hqpos
      rwa [neg_neg] at h2
    rw [key, hq]
  · subst h
    rw [rhe28, if_pos rfl]
    dsimp only
    have h0 : ((0 : ℤ) : ℚ) / (d : ℚ) = 0 := by norm_num
    rw [h0, exactCents, if_pos (le_refl 0)]
    norm_num
    decide
  · rw [rhe28, if_neg (by omega), if_pos h]
    exact quant_rhe28pos_ok n d h hd (by omega)

theorem intChars_no_slash (n : ℤ) : ∀ c ∈ intChars n, c ≠ '/' := by
  intro c hc
  rw [intChars] at hc
  by_cases hn : n < 0
  · rw [if_pos hn] at hc
    rcases List.mem_cons.mp hc with rfl | hc
    · decide
    · exact (natChars_digit_facts _ c hc).2.2.2.2.2.1
  · rw [if_neg hn] at hc
    exact (natChars_digit_facts _ c hc).2.2.2.2.2.1

theorem parseNumberChars_two (a b l : List Char) (hsp : splitOnSlash l = [a, b])
    (x y v : PyDec) (hx : decOfChars a = some x) (hy : decOfChars b = some y)
    (hv : decDiv x y = .ok v) :
    parseNumberChars l = quantizeUp v := by
  simp only [parseNumberChars, hsp, hx, hy, hv]

/-- Claim C1, amended: on canonical integer strings with |numerator| below
2·10²⁵ (and any nonzero denominator), `_parse_number` returns exactly the
rational value numerator/denominator quantized to two decimal places,
rounding away from zero.  (For larger numerators the intermediate division
is rounded to the `decimal` context's 28 significant digits, which can
change the quantized result — see the counterexample.) -/
theorem parse_number_exact_small (n d : ℤ) (hd : d ≠ 0)
    (hb : n.natAbs < 2 * 10 ^ 25) :
    parseNumberChars (intChars n ++ '/' :: intChars d) =
      .ok (.cents (exactCents ((n : ℚ) / (d : ℚ)))) := by
  have hsplit : splitOnSlash (intChars n ++ '/' :: intChars d) =
      [intChars n, intChars d] := by
    rw [splitOnSlash_mid _ _ (intChars_no_slash n),
      splitOnSlash_no_slash _ (intChars_no_slash d)]
  have hfrac : fracOfDiv n 0 d 0 = if d < 0 then (-n, -d) else (n, d) := by
    rw [fracOfDiv]
    norm_num [zpow10, pow10]
  have hdiv : decDiv (.finite n 0) (.finite d 0) =
      if d = 0 then (if n = 0 then .error .invalidOperation else .error .divisionByZero)
      else .ok (.finite (rhe28 (fracOfDiv n 0 d 0).1 (fracOfDiv n 0 d 0).2).1
        (rhe28 (fracOfDiv n 0 d 0).1 (fracOfDiv n 0 d 0).2).2) := rfl
  rw [if_neg hd, hfrac] at hdiv
  by_cases hds : d < 0
  · rw [if_pos hds] at hdiv
    rw [parseNumberChars_two _ _ _ hsplit _ _ _ (decOfChars_intChars n)
      (decOfChars_intChars d) hdiv]
    have h1 := quant_rhe28_ok (-n) (-d) (by omega) (by omega)
    dsimp only at hdiv h1 ⊢
    rw [h1]
    congr 2
    push_cast
    rw [neg_div_neg_eq]
  · rw [if_neg hds] at hdiv
    rw [parseNumberChars_two _ _ _ hsplit _ _ _ (decOfChars_intChars n)
      (decOfChars_intChars d) hdiv]
    exact quant_rhe28_ok n d (by omega) hb

/-- Claim C1, counterexample: at numerator 10³⁰+1 over denominator 10³⁰ the
parser returns 1.00 (the 28-significant-digit division result, quantized),
while the exact rational value quantized to two decimals rounding away from
zero is 1.01.  So `_parse_number` does not always return the exact rational
value quantized. -/
theorem parse_number_not_exact_counterexample :
    parse_number "1000000000000000000000000000001/1000000000000000000000000000000" =
      .ok (.cents 100) ∧
    exactCents ((1000000000000000000000000000001 : ℚ) / 1000000000000000000000000000000) =
      101 ∧ (100 : ℤ) ≠ 101 := by
  refine ⟨by decide, ?_, by decide⟩
  rw [exactCents, if_pos (by positivity), Int.ceil_eq_iff]
  constructor
  · push_cast
    norm_num
  · push_cast
    norm_num

theorem exactCents_333 : exactCents ((333 : ℚ) / 1000) = 34 := by
  rw [exactCents, if_pos (by positivity), Int.ceil_eq_iff]
  norm_num

theorem exactCents_one : exactCents (1 : ℚ) = 100 := by
  rw [exactCents, if_pos (by norm_num), Int.ceil_eq_iff]
  norm_num

theorem exactCents_zero : exactCents (0 : ℚ) = 0 := by
  rw [exactCents, if_pos (by norm_num)]
  norm_num

/-- Witness for the amended claim C1: the specification's three examples,
obtained from the general theorem at concrete inputs. -/
theorem parse_number_exact_small_witness :
    parse_number "333/1000" = .ok (.cents 34) ∧
    parse_number "100/100" = .ok (.cents 100) ∧
    parse_number "0/100000" = .ok (.cents 0) := by
  refine ⟨?_, ?_, ?_⟩
  · have h := parse_number_exact_small 333 1000 (by decide) (by decide)
    have heq : "333/1000".data = intChars 333 ++ '/' :: intChars 1000 := by decide
    rw [parse_number, heq, h]
    norm_num [exactCents_333]
  · have h := parse_number_exact_small 100 100 (by decide) (by decide)
    have heq : "100/100".data = intChars 100 ++ '/' :: intChars 100 := by decide
    rw [parse_number, heq, h]
    norm_num [exactCents_one]
  · have h := parse_number_exact_small 0 100000 (by decide) (by decide)
    have heq : "0/100000".data = intChars 0 ++ '/' :: intChars 100000 := by decide
    rw [parse_number, heq, h]
    norm_num [exactCents_zero]

/-- Claim C8, amended: `_parse_number` fails — with the FormatError-class
exceptions `ValueError` / `decimal.InvalidOperation` and no other kind —
for every input that does not split on "/" into exactly two parts, and for
every input either of whose sides is outside Python's decimal numeral
grammar.  (A side that is a numeral but not an integer, such as "1.5", is
accepted — see the counterexample.) -/
theorem parse_number_malformed (l : List Char) :
    ((splitOnSlash l).length ≠ 2 → parseNumberChars l = .error .valueError) ∧
    (∀ a b, splitOnSlash l = [a, b] →
      (decOfChars a = none ∨ decOfChars b = none) →
      parseNumberChars l = .error .invalidOperation) := by
  constructor
  · intro h
    cases hsp : splitOnSlash l with
    | nil => simp [parseNumberChars, hsp]
    | cons a t =>
      cases t with
      | nil => simp [parseNumberChars, hsp]
      | cons b t2 =>
        cases t2 with
        | nil =>
          exfalso
          apply h
          rw [hsp]
          rfl
        | cons c t3 => simp [parseNumberChars, hsp]
  · intro a b hsp hnone
    rcases hnone with hna | hnb
    · simp [parseNumberChars, hsp, hna]
    · cases hx : decOfChars a with
      | none => simp [parseNumberChars, hsp, hx]
      | some x => simp [parseNumberChars, hsp, hx, hnb]

/-- An integer literal in the sense of claim C8: an optional sign followed
by one or more decimal digits. -/
def integerLiteral (l : List Char) : Bool :=
  !(readSign l).2.isEmpty && (readSign l).2.all isDigitChar

/-- Claim C8, counterexample: the left side of "1.5/2" is not an integer,
yet `_parse_number` succeeds on it (returning 0.75) instead of raising. -/
theorem parse_number_accepts_noninteger_counterexample :
    integerLiteral "1.5".data = false ∧
    splitOnSlash "1.5/2".data = ["1.5".data, "2".data] ∧
    parse_number "1.5/2" = .ok (.cents 75) := by
  exact ⟨by decide, by decide, by decide⟩

/-- Witness for the amended claim C8 at two concrete malformed inputs. -/
theorem parse_number_malformed_witness :
    parse_number "abc" = .error .valueError ∧
    parse_number "x/2" = .error .invalidOperation := by
  constructor
  · exact (parse_number_malformed "abc".data).1 (by decide)
  · exact (parse_number_malformed "x/2".data).2 "x".data "2".data (by decide)
      (Or.inl (by decide))

/-! ## Typed slot parsing (`_slots_from_tree`) -/

mutual
/-- The XML side of a slot value element, as read by `_slots_from_tree`:
its optional `type` attribute, its text, the text of an optional `gdate`
child, the text of an optional `ts:date` child, and its `slot` children
(used when the type is `frame`).  `XmlSlots` is the list of `slot`
children of a `slots` (or frame value) element: each has a key and a value
element. -/
inductive XmlVal where
  | mk (typeAttr : Option String) (text : Option String) (gdateText : Option String)
      (tsDateText : Option String) (frameSlots : XmlSlots)
deriving DecidableEq
inductive XmlSlots where
  | nil
  | cons (key : String) (val : XmlVal) (rest : XmlSlots)
deriving DecidableEq
end

mutual
/-- A parsed slot value: `int` for `integer`/`double`, `numeric` via
`_parse_number`, `text` for `string`/`guid`, raw-text dates for
`gdate`/`timespec` (`dateutil` parsing is modelled as keeping the text),
and a nested mapping for `frame`.  `SlotMap` is a Python dict from keys to
slot values (insertion-ordered association list). -/
inductive SlotVal where
  | int (i : ℤ)
  | numeric (v : PyNum)
  | text (s : Option String)
  | gdate (raw : String)
  | timespec (raw : String)
  | frame (m : SlotMap)
deriving DecidableEq
inductive SlotMap where
  | nil
  | cons (key : String) (val : SlotVal) (rest : SlotMap)
deriving DecidableEq
end

/-- Python dict assignment on a `SlotMap`. -/
def slotInsert : SlotMap → String → SlotVal → SlotMap
  | .nil, k, v => .cons k v .nil
  | .cons k' v' t, k, v =>
    if k' = k then .cons k' v t else .cons k' v' (slotInsert t k v)

/-- Python dict lookup on a `SlotMap`. -/
def slotFind : SlotMap → String → Option SlotVal
  | .nil, _ => none
  | .cons k' v t, k => if k' = k then some v else slotFind t k

/-- Left fold of dict assignments, in document order. -/
def slotDictAux : SlotMap → List (String × SlotVal) → SlotMap
  | m, [] => m
  | m, (k, w) :: t => slotDictAux (slotInsert m k w) t

def slotDictOf (ps : List (String × SlotVal)) : SlotMap := slotDictAux .nil ps

/-- Body of a CPython `int()` literal after the optional sign: digits with
single underscores allowed only between digits. -/
def intTail : List Char → Bool
  | [] => true
  | '_' :: c :: t => isDigitChar c && intTail t
  | c :: t => isDigitChar c && intTail t

def intBodyOk : List Char → Bool
  | [] => false
  | c :: t => isDigitChar c && intTail t

/-- Python `int(text)` on the `.text` of an element: `TypeError` on a
missing text (`int(None)`), `ValueError` on anything but an optionally
signed decimal literal surrounded by optional whitespace (ASCII-only
model). -/
def pyIntOfText : Option String → Except PyErr ℤ
  | none => .error .typeError
  | some s =>
    let p := readSign (trimChars s.data)
    if intBodyOk p.2 then
      .ok (if p.1 then -(digitsToNat (p.2.filter (fun c => c ≠ '_')) : ℤ)
           else (digitsToNat (p.2.filter (fun c => c ≠ '_')) : ℤ))
    else .error .valueError

mutual
/-- The slot-value dispatch of `_slots_from_tree`:

    type_ = value.get('type', 'string')
    if type_ in ('integer', 'double'): slots[key] = int(value.text)
    elif type_ == 'numeric':           slots[key] = _parse_number(value.text)
    elif type_ in ('string', 'guid'):  slots[key] = value.text
    elif type_ == 'gdate':             slots[key] = parse_date(value.find("gdate").text)
    elif type_ == 'timespec':          slots[key] = parse_date(value.find(ts + "date").text)
    elif type_ == 'frame':             slots[key] = _slots_from_tree(value)
    else: raise RuntimeError(...)

`convSlotsList` converts the slot elements in document order (stopping at
the first exception, as the Python loop does); the dict is the left fold
of the assignments. -/
def convVal : XmlVal → Except PyErr SlotVal
  | .mk tattr text gd ts fr =>
    if tattr.getD "string" = "integer" ∨ tattr.getD "string" = "double" then
      match pyIntOfText text with
      | .error e => .error e
      | .ok i => .ok (.int i)
    else if tattr.getD "string" = "numeric" then
      match text with
      | none => .error .attributeError
      | some s =>
        match parseNumberChars s.data with
        | .error e => .error e
        | .ok v => .ok (.numeric v)
    else if tattr.getD "string" = "string" ∨ tattr.getD "string" = "guid" then
      .ok (.text text)
    else if tattr.getD "string" = "gdate" then
      match gd with
      | none => .error .attributeError
      | some s => .ok (.gdate s)
    else if tattr.getD "string" = "timespec" then
      match ts with
      | none => .error .attributeError
      | some s => .ok (.timespec s)
    else if tattr.getD "string" = "frame" then
      match convSlotsList fr with
      | .error e => .error e
      | .ok ps => .ok (.frame (slotDictOf ps))
    else .error .runtimeError

def convSlotsList : XmlSlots → Except PyErr (List (String × SlotVal))
  | .nil => .ok []
  | .cons k v rest =>
    match convVal v with
    | .error e => .error e
    | .ok w =>
      match convSlotsList rest with
      | .error e => .error e
      | .ok ps => .ok ((k, w) :: ps)
end

/-- `_slots_from_tree`: an absent `slots` element yields the empty
mapping; otherwise the slot elements are converted and assigned in
document order. -/
def slots_from_tree : Option XmlSlots → Except PyErr SlotMap
  | none => .ok .nil
  | some l =>
    match convSlotsList l with
    | .error e => .error e
    | .ok ps => .ok (slotDictOf ps)

def slotsKeys : XmlSlots → List String
  | .nil => []
  | .cons k _ r => k :: slotsKeys r

def slotsEntries : XmlSlots → List (String × XmlVal)
  | .nil => []
  | .cons k v r => (k, v) :: slotsEntries r

/-! ## Slot map lemmas -/

theorem slotFind_insert_self : ∀ (m : SlotMap) (k : String) (w : SlotVal),
    slotFind (slotInsert m k w) k = some w
  | .nil, k, w => by simp [slotInsert, slotFind]
  | .cons k' v t, k, w => by
    rw [slotInsert]
    by_cases h : k' = k
    · rw [if_pos h, slotFind, if_pos h]
    · rw [if_neg h, slotFind, if_neg h, slotFind_insert_self t k w]

theorem slotFind_insert_ne : ∀ (m : SlotMap) (k k' : String) (w : SlotVal), k' ≠ k →
    slotFind (slotInsert m k' w) k = slotFind m k
  | .nil, k, k', w, h => by simp [slotInsert, slotFind, h]
  | .cons k0 v t, k, k', w, h => by
    rw [slotInsert]
    by_cases h0 : k0 = k'
    · rw [if_pos h0, slotFind, slotFind]
      subst h0
      rw [if_neg (by exact h), if_neg (by exact h)]
    · rw [if_neg h0, slotFind, slotFind, slotFind_insert_ne t k k' w h]

theorem slotDictAux_find_notin (ps : List (String × SlotVal)) :
    ∀ (m : SlotMap) (k : String), k ∉ ps.map Prod.fst →
      slotFind (slotDictAux m ps) k = slotFind m k := by
  induction ps with
  | nil => intro m k _; rfl
  | cons p t ih =>
    intro m k h
    obtain ⟨k0, w0⟩ := p
    simp only [List.map_cons, List.mem_cons] at h
    push_neg at h
    rw [slotDictAux, ih _ k h.2, slotFind_insert_ne _ _ _ _ fun he => h.1 he.symm]

theorem slotDictAux_find_mem (ps : List (String × SlotVal)) :
    ∀ (m : SlotMap) (k : String) (w : SlotVal), (ps.map Prod.fst).Nodup →
      (k, w) ∈ ps → slotFind (slotDictAux m ps) k = some w := by
  induction ps with
  | nil => intro m k w _ h; simp at h
  | cons p t ih =>
    intro m k w hnd hmem
    obtain ⟨k0, w0⟩ := p
    simp only [List.map_cons, List.nodup_cons] at hnd
    rcases List.mem_cons.mp hmem with heq | htail
    · injection heq with h1 h2
      subst h1
      subst h2
      rw [slotDictAux, slotDictAux_find_notin t _ k hnd.1, slotFind_insert_self]
    · rw [slotDictAux]
      exact ih _ k w hnd.2 htail

theorem convVal_mk (tattr text gd ts : Option String) (fr : XmlSlots) :
    convVal (.mk tattr text gd ts fr) =
      (if tattr.getD "string" = "integer" ∨ tattr.getD "string" = "double" then
        match pyIntOfText text with
        | .error e => .error e
        | .ok i => .ok (.int i)
      else if tattr.getD "string" = "numeric" then
        match text with
        | none => .error .attributeError
        | some s =>
          match parseNumberChars s.data with
          | .error e => .error e
          | .ok v => .ok (.numeric v)
      else if tattr.getD "string" = "string" ∨ tattr.getD "string" = "guid" then
        .ok (.text text)
      else if tattr.getD "string" = "gdate" then
        match gd with
        | none => .error .attributeError
        | some s => .ok (.gdate s)
      else if tattr.getD "string" = "timespec" then
        match ts with
        | none => .error .attributeError
        | some s => .ok (.timespec s)
      else if tattr.getD "string" = "frame" then
        match convSlotsList fr with
        | .error e => .error e
        | .ok ps => .ok (.frame (slotDictOf ps))
      else .error .runtimeError) := rfl

theorem conv_entry : ∀ (l : XmlSlots) (ps : List (String × SlotVal)),
    convSlotsList l = .ok ps →
    ps.map Prod.fst = slotsKeys l ∧
      ∀ k v, (k, v) ∈ slotsEntries l → ∃ w, convVal v = .ok w ∧ (k, w) ∈ ps
  | .nil, ps, h => by
    rw [convSlotsList] at h
    injection h with h
    subst h
    exact ⟨rfl, by intro k v hv; simp [slotsEntries] at hv⟩
  | .cons k0 v0 rest, ps, h => by
    rw [convSlotsList] at h
    cases hv : convVal v0 with
    | error e => rw [hv] at h; simp at h
    | ok w0 =>
      rw [hv] at h
      cases hr : convSlotsList rest with
      | error e => rw [hr] at h; simp at h
      | ok ps' =>
        rw [hr] at h
        injection h with h
        subst h
        obtain ⟨hkeys, hmem⟩ := conv_entry rest ps' hr
        constructor
        · rw [List.map_cons, hkeys, slotsKeys]
        · intro k v hkv
          rw [slotsEntries] at hkv
          rcases List.mem_cons.mp hkv with heq | htail
          · injection heq with h1 h2
            subst h1
            subst h2
            exact ⟨w0, hv, by simp⟩
          · obtain ⟨w, hw1, hw2⟩ := hmem k v htail
            exact ⟨w, hw1, by simp [hw2]⟩

/-- Claim C9: slot parsing of a metadata frame produces a mapping whose
nesting mirrors the XML nesting exactly — each key maps to a value typed
per its declared type tag (`integer`/`double` → signed integer, `numeric`
→ two-decimal amount, `string`/`guid` → text, `gdate` → date, `timespec`
→ date-time), a value tagged `frame` maps to the nested mapping produced
by the recursive call directly with no wrapper, and an absent slots
element produces an empty mapping. -/
theorem slots_mirror_nesting :
    slots_from_tree none = .ok .nil ∧
    ∀ (l : XmlSlots) (m : SlotMap), slots_from_tree (some l) = .ok m →
      (slotsKeys l).Nodup →
      ∀ k tattr text gd ts fr, (k, XmlVal.mk tattr text gd ts fr) ∈ slotsEntries l →
        ((tattr.getD "string" = "integer" ∨ tattr.getD "string" = "double" →
            ∃ i, pyIntOfText text = .ok i ∧ slotFind m k = some (.int i)) ∧
          (tattr.getD "string" = "numeric" →
            ∃ s v, text = some s ∧ parseNumberChars s.data = .ok v ∧
              slotFind m k = some (.numeric v)) ∧
          (tattr.getD "string" = "string" ∨ tattr.getD "string" = "guid" →
            slotFind m k = some (.text text)) ∧
          (tattr.getD "string" = "gdate" →
            ∃ s, gd = some s ∧ slotFind m k = some (.gdate s)) ∧
          (tattr.getD "string" = "timespec" →
            ∃ s, ts = some s ∧ slotFind m k = some (.timespec s)) ∧
          (tattr.getD "string" = "frame" →
            ∃ fm, slots_from_tree (some fr) = .ok fm ∧
              slotFind m k = some (.frame fm))) := by
  refine ⟨rfl, ?_⟩
  intro l m hok hnd k tattr text gd ts fr hmem
  rw [slots_from_tree] at hok
  cases hcl : convSlotsList l with
  | error e => rw [hcl] at hok; simp at hok
  | ok ps =>
    rw [hcl] at hok
    injection hok with hok
    subst hok
    obtain ⟨hkeys, hentry⟩ := conv_entry l ps hcl
    obtain ⟨w, hw, hwmem⟩ := hentry k _ hmem
    have hfind : slotFind (slotDictOf ps) k = some w :=
      slotDictAux_find_mem ps .nil k w (by rw [hkeys]; exact hnd) hwmem
    rw [convVal_mk] at hw
    refine ⟨?_, ?_, ?_, ?_, ?_, ?_⟩
    · intro hty
      rw [if_pos hty] at hw
      cases hpy : pyIntOfText text with
      | error e => rw [hpy] at hw; simp at hw
      | ok i =>
        rw [hpy] at hw
        injection hw with hw
        subst hw
        exact ⟨i, rfl, hfind⟩
    · intro hty
      rw [if_neg (by rw [hty]; simp), if_pos hty] at hw
      cases text with
      | none => simp at hw
      | some s =>
        dsimp only at hw
        cases hpn : parseNumberChars s.data with
        | error e => rw [hpn] at hw; simp at hw
        | ok v =>
          rw [hpn] at hw
          injection hw with hw
          subst hw
          exact ⟨s, v, rfl, hpn, hfind⟩
    · intro hty
      rcases hty with hty | hty <;>
        · rw [if_neg (by rw [hty]; simp), if_neg (by rw [hty]; simp),
            if_pos (by rw [hty]; simp)] at hw
          injection hw with hw
          subst hw
          exact hfind
    · intro hty
      rw [if_neg (by rw [hty]; simp), if_neg (by rw [hty]; simp),
        if_neg (by rw [hty]; simp), if_pos hty] at hw
      cases gd with
      | none => simp at hw
      | some s =>
        dsimp only at hw
        injection hw with hw
        subst hw
        exact ⟨s, rfl, hfind⟩
    · intro hty
      rw [if_neg (by rw [hty]; simp), if_neg (by rw [hty]; simp),
        if_neg (by rw [hty]; simp), if_neg (by rw [hty]; simp), if_pos hty] at hw
      cases ts with
      | none => simp at hw
      | some s =>
        dsimp only at hw
        injection hw with hw
        subst hw
        exact ⟨s, rfl, hfind⟩
    · intro hty
      rw [if_neg (by rw [hty]; simp), if_neg (by rw [hty]; simp),
        if_neg (by rw [hty]; simp), if_neg (by rw [hty]; simp),
        if_neg (by rw [hty]; simp), if_pos hty] at hw
      cases hfr : convSlotsList fr with
      | error e => rw [hfr] at hw; simp at hw
      | ok ps' =>
        rw [hfr] at hw
        injection hw with hw
        subst hw
        exact ⟨slotDictOf ps', by rw [slots_from_tree, hfr], hfind⟩

/-- Claim C10: a slot value element carrying no `type` attribute is
treated as type `string` — the mapping binds the key to the element's raw
text and no error is raised. -/
theorem slots_no_type_attr_string :
    (∀ text gd ts fr, convVal (.mk none text gd ts fr) = .ok (.text text)) ∧
    ∀ (l : XmlSlots) (m : SlotMap), slots_from_tree (some l) = .ok m →
      (slotsKeys l).Nodup →
      ∀ k text gd ts fr, (k, XmlVal.mk none text gd ts fr) ∈ slotsEntries l →
        slotFind m k = some (.text text) := by
  have hconv : ∀ text gd ts fr, convVal (XmlVal.mk none text gd ts fr) = .ok (.text text) := by
    intro text gd ts fr
    rw [convVal_mk]
    simp
  refine ⟨hconv, ?_⟩
  intro l m hok hnd k text gd ts fr hmem
  rw [slots_from_tree] at hok
  cases hcl : convSlotsList l with
  | error e => rw [hcl] at hok; simp at hok
  | ok ps =>
    rw [hcl] at hok
    injection hok with hok
    subst hok
    obtain ⟨hkeys, hentry⟩ := conv_entry l ps hcl
    obtain ⟨w, hw, hwmem⟩ := hentry k _ hmem
    rw [hconv text gd ts fr] at hw
    injection hw with hw
    subst hw
    exact slotDictAux_find_mem ps .nil k _ (by rw [hkeys]; exact hnd) hwmem

/-- Example slots element: an integer slot and a frame slot holding a
numeric slot. -/
def exSlots9 : XmlSlots :=
  .cons "a" (.mk (some "integer") (some "42") none none .nil)
    (.cons "b" (.mk (some "frame") none none none
      (.cons "c" (.mk (some "numeric") (some "1/4") none none .nil) .nil)) .nil)

/-- The parsed mapping of `exSlots9`. -/
def exMap9 : SlotMap :=
  .cons "a" (.int 42) (.cons "b" (.frame (.cons "c" (.numeric (.cents 25)) .nil)) .nil)

/-- Witness for claim C9 on a concrete nested frame. -/
theorem slots_mirror_nesting_witness :
    (∃ i, pyIntOfText (some "42") = .ok i ∧ slotFind exMap9 "a" = some (.int i)) ∧
    (∃ fm, slots_from_tree (some (.cons "c" (.mk (some "numeric") (some "1/4") none none .nil) .nil)) = .ok fm ∧
      slotFind exMap9 "b" = some (.frame fm)) := by
  constructor
  · exact ((slots_mirror_nesting.2 exSlots9 exMap9 (by decide) (by decide) "a"
      (some "integer") (some "42") none none .nil (by decide)).1 (by decide))
  · exact ((slots_mirror_nesting.2 exSlots9 exMap9 (by decide) (by decide) "b"
      (some "frame") none none none
      (.cons "c" (.mk (some "numeric") (some "1/4") none none .nil) .nil)
      (by decide)).2.2.2.2.2 (by decide))

/-- Witness for claim C10 on a concrete slot without a type attribute. -/
theorem slots_no_type_attr_witness :
    slotFind (.cons "k" (.text (some "raw")) .nil) "k" = some (.text (some "raw")) :=
  slots_no_type_attr_string.2
    (.cons "k" (.mk none (some "raw") none none .nil) .nil)
    (.cons "k" (.text (some "raw")) .nil)
    (by decide) (by decide) "k" (some "raw") none none .nil (by decide)

/-! ## Account.fullname (claim C7) -/

/-- An account as seen by `Account.fullname`: its name and its parent
pointer (`None` for the root).  The parent chain of any account in a
loaded book is finite, so it is modelled inductively. -/
inductive PAccount where
  | mk (name : String) (parent : Option PAccount)

def pname : PAccount → String
  | .mk n _ => n

def pparent : PAccount → Option PAccount
  | .mk _ p => p

/-- `Account.fullname`:

    if self.parent:
        pfn = self.parent.fullname()
        if pfn:
            return '{}:{}'.format(pfn, self.name)
        else:
            return self.name
    else:
        return ''

(an absent name text, Python `None`, is modelled as `""`; both are falsy). -/
def fullname : PAccount → String
  | .mk name (some p) => if fullname p ≠ "" then fullname p ++ ":" ++ name else name
  | .mk _ none => ""

theorem fullname_ne_empty (p : PAccount) (hp : pparent p ≠ none) (hn : pname p ≠ "") :
    fullname p ≠ "" := by
  cases p with
  | mk n pp =>
    cases pp with
    | none => exact absurd (by simp [pparent]) hp
    | some q =>
      rw [fullname]
      simp only [pname] at hn
      by_cases h : fullname q ≠ ""
      · rw [if_pos h]
        intro heq
        have hd := congrArg String.data heq
        rw [String.data_append, String.data_append] at hd
        simp [show (":" : String).data = [':'] from rfl] at hd
      · rw [if_neg h]
        exact hn

/-- Claim C7 (amended): for a non-root account `A` in a loaded book,
`fullname A = name A` when `A`'s parent is the root; and
`fullname A = fullname (parent A) ++ ":" ++ name A` when `A`'s parent is a
non-root account *whose name is nonempty*.  (When the parent's name is
empty — an empty `act:name` element — the code returns just `name A`; see
the counterexample.) -/
theorem fullname_parent_formula :
    (∀ name rootname, fullname (.mk name (some (.mk rootname none))) = name) ∧
    (∀ name p, pparent p ≠ none → pname p ≠ "" →
      fullname (.mk name (some p)) = fullname p ++ ":" ++ name) := by
  constructor
  · intro name rootname
    rw [fullname, fullname]
    simp
  · intro name p hp hn
    rw [fullname, if_pos (fullname_ne_empty p hp hn)]

/-- Claim C7 counterexample: a non-root account `x` whose parent is the
non-root, empty-named child of the root.  `fullname` returns `"x"`, while
the claimed equation demands `fullname(parent) ++ ":" ++ "x" = ":x"`. -/
theorem fullname_counterexample :
    pparent (.mk "" (some (.mk "Root" none))) ≠ none ∧
    fullname (.mk "x" (some (.mk "" (some (.mk "Root" none))))) = "x" ∧
    fullname (.mk "" (some (.mk "Root" none))) ++ ":" ++ "x" = ":x" ∧
    "x" ≠ ":x" := ⟨by simp [pparent], by decide, by decide, by decide⟩

/-- Witness for the amended claim C7 on a three-level chain. -/
theorem fullname_parent_formula_witness :
    fullname (.mk "b" (some (.mk "a" (some (.mk "Root" none))))) = "a:b" := by
  rw [fullname_parent_formula.2 "b" (.mk "a" (some (.mk "Root" none)))
    (by simp [pparent]) (by simp [pname])]
  decide

/-! ## Account.walk (claim C6) -/

/-- A finite acyclic account tree, as walked by `Account.walk`: each
account carries its guid, the list of (guids of) its splits, and its
children. -/
inductive AccTree where
  | node (guid : String) (splits : List String) (children : List AccTree)

def AccTree.children : AccTree → List AccTree
  | .node _ _ c => c

def AccTree.splits : AccTree → List String
  | .node _ s _ => s

/-- Total number of tree nodes in a forest. -/
def countList : List AccTree → ℕ
  | [] => 0
  | .node _ _ c :: rest => 1 + countList c + countList rest

theorem countList_append : ∀ a b : List AccTree,
    countList (a ++ b) = countList a + countList b
  | [], b => by simp [countList]
  | .node g s c :: rest, b => by
    rw [List.cons_append, countList, countList, countList_append rest b]
    omega

/-- The children of all roots of a forest, in order (one BFS level down). -/
def forestChildren : List AccTree → List AccTree
  | [] => []
  | t :: rest => t.children ++ forestChildren rest

theorem forestChildren_append : ∀ a b : List AccTree,
    forestChildren (a ++ b) = forestChildren a ++ forestChildren b
  | [], b => by simp [forestChildren]
  | t :: rest, b => by
    rw [List.cons_append, forestChildren, forestChildren,
      forestChildren_append rest b, List.append_assoc]

theorem countList_forestChildren : ∀ q : List AccTree,
    countList (forestChildren q) + q.length = countList q
  | [] => by simp [forestChildren, countList]
  | .node g s c :: rest => by
    rw [forestChildren, countList, countList_append, List.length_cons]
    have := countList_forestChildren rest
    show countList c + countList (forestChildren rest) + (rest.length + 1) =
      1 + countList c + countList rest
    omega

/-- The queue loop of `Account.walk`:

    accounts = [self]
    while accounts:
        acc, accounts = accounts[0], accounts[1:]
        children = list(acc.children)
        yield (acc, children, acc.splits)
        accounts.extend(children)
-/
def walkAux : List AccTree → List (AccTree × List AccTree × List String)
  | [] => []
  | .node g s c :: rest => (.node g s c, c, s) :: walkAux (rest ++ c)
termination_by q => countList q
decreasing_by
  rw [countList_append]
  simp [countList]
  omega

/-- `Account.walk()` (the generator is modelled by the full finite list of
yielded triples). -/
def walk (t : AccTree) : List (AccTree × List AccTree × List String) := walkAux [t]

/-- Reference breadth-first order: a forest level by level. -/
def bfsLevels : List AccTree → List AccTree
  | [] => []
  | t :: rest => (t :: rest) ++ bfsLevels (forestChildren (t :: rest))
termination_by q => countList q
decreasing_by
  have h := countList_forestChildren (t :: rest)
  simp at h ⊢
  omega

/-- All tree nodes of a forest, root before descendants. -/
def allNodesList : List AccTree → List AccTree
  | [] => []
  | .node g s c :: rest => .node g s c :: (allNodesList c ++ allNodesList rest)

/-- All splits attached to the accounts of a forest. -/
def allSplitsList : List AccTree → List String
  | [] => []
  | .node g s c :: rest => s ++ (allSplitsList c ++ allSplitsList rest)

theorem allNodesList_append : ∀ a b : List AccTree,
    allNodesList (a ++ b) = allNodesList a ++ allNodesList b
  | [], b => by simp [allNodesList]
  | .node g s c :: rest, b => by
    rw [List.cons_append, allNodesList, allNodesList, allNodesList_append rest b]
    simp [List.append_assoc]

theorem allSplitsList_append : ∀ a b : List AccTree,
    allSplitsList (a ++ b) = allSplitsList a ++ allSplitsList b
  | [], b => by simp [allSplitsList]
  | .node g s c :: rest, b => by
    rw [List.cons_append, allSplitsList, allSplitsList, allSplitsList_append rest b]
    simp [List.append_assoc]

/-- The queue walk pops the whole current queue before any of the
children appended behind it. -/
theorem walkAux_queue (q : List AccTree) : ∀ r : List AccTree,
    (walkAux (q ++ r)).map (fun x => x.1) =
      q ++ (walkAux (r ++ forestChildren q)).map (fun x => x.1) := by
  induction q with
  | nil => intro r; simp [forestChildren]
  | cons t q' ih =>
    intro r
    cases t with
    | node g s c =>
      rw [List.cons_append, walkAux, List.map_cons,
        show (q' ++ r) ++ c = q' ++ (r ++ c) from List.append_assoc q' r c,
        ih (r ++ c), forestChildren]
      simp [AccTree.children, List.append_assoc]

theorem walkAux_eq_bfsLevels : ∀ q : List AccTree,
    (walkAux q).map (fun x => x.1) = bfsLevels q
  | [] => by simp [walkAux, bfsLevels]
  | t :: rest => by
    have h := walkAux_queue (t :: rest) []
    rw [List.append_nil, List.nil_append] at h
    rw [h, bfsLevels, walkAux_eq_bfsLevels (forestChildren (t :: rest))]
termination_by q => countList q
decreasing_by
  have h := countList_forestChildren (t :: rest)
  simp at h ⊢
  omega

theorem walkAux_nodes_perm : ∀ q : List AccTree,
    ((walkAux q).map (fun x => x.1)).Perm (allNodesList q)
  | [] => by simp [walkAux, allNodesList]
  | .node g s c :: rest => by
    rw [walkAux, List.map_cons, allNodesList]
    refine List.Perm.cons _ ?_
    have h := walkAux_nodes_perm (rest ++ c)
    rw [allNodesList_append] at h
    exact h.trans (List.perm_append_comm)
termination_by q => countList q
decreasing_by
  rw [countList_append]
  simp [countList]
  omega

theorem walkAux_splits_perm : ∀ q : List AccTree,
    (((walkAux q).map (fun x => x.2.2)).join).Perm (allSplitsList q)
  | [] => by simp [walkAux, allSplitsList]
  | .node g s c :: rest => by
    rw [walkAux, List.map_cons, List.join, allSplitsList]
    refine List.Perm.append_left s ?_
    have h := walkAux_splits_perm (rest ++ c)
    rw [allSplitsList_append] at h
    exact h.trans (List.perm_append_comm)
termination_by q => countList q
decreasing_by
  rw [countList_append]
  simp [countList]
  omega

/-- Claim C6: over any finite acyclic account tree, `walk()` yields a
finite sequence of (account, children, splits) triples in breadth-first
order (equal to the level-by-level traversal), in which every account of
the tree occurs exactly once (the yielded accounts are a permutation of
the tree's nodes), and the concatenation of the yielded split lists is a
permutation of all splits attached to accounts of the tree — each split
appearing exactly once. -/
theorem walk_bfs_once (t : AccTree) :
    (walk t).map (fun x => x.1) = bfsLevels [t] ∧
    ((walk t).map (fun x => x.1)).Perm (allNodesList [t]) ∧
    (((walk t).map (fun x => x.2.2)).join).Perm (allSplitsList [t]) :=
  ⟨walkAux_eq_bfsLevels [t], walkAux_nodes_perm [t], walkAux_splits_perm [t]⟩

/-! ## The `_book_from_tree` pipeline (claims C2–C5)

XML element navigation is abstracted: a `GnucashDoc` carries, per record
kind and in document order, the sub-element texts that `_book_from_tree`
reads.  Mandatory always-read texts (`act:name`, `trn:id`, …) are plain
`String` fields; texts the code reads conditionally or that may be absent
are `Option String`.  Python object identity for `Commodity` instances is
modelled by an allocation arena: instance = index into `BuildSt.arena`. -/

structure BuildSt where
  arena : List (String × String)
  cdict : List ((String × String) × ℕ)
deriving DecidableEq

/-- `_commodity_find`:
`commoditydict.setdefault((space, name), Commodity(name=name, space=space))` —
return the existing shared instance, or allocate a fresh one and register
it. -/
def commodity_find (st : BuildSt) (space name : String) : ℕ × BuildSt :=
  match List.lookup (space, name) st.cdict with
  | some i => (i, st)
  | none =>
    (st.arena.length,
     { arena := st.arena ++ [(space, name)],
       cdict := st.cdict ++ [((space, name), st.arena.length)] })

/-- The `gnc:commodity` loop: each top-level declaration is resolved
through `_commodity_find` and the shared instance appended to
`commodities`. -/
def commodityPhase (st : BuildSt) : List (String × String) → List ℕ × BuildSt
  | [] => ([], st)
  | (space, name) :: rest =>
    let r := commodity_find st space name
    let r2 := commodityPhase r.2 rest
    (r.1 :: r2.1, r2.2)

structure PriceRec where
  guid : String
  valueText : String
  dateText : String
  currencySpace : String
  currencyName : String
  commoditySpace : String
  commodityName : String
deriving DecidableEq

structure Price where
  guid : String
  commodity : ℕ
  currency : ℕ
  date : String
  value : PyNum
deriving DecidableEq

/-- `_price_from_tree`: value via `_parse_number`, date via `parse_date`
(kept as text), then currency and commodity through `_commodity_find`. -/
def price_from_tree (st : BuildSt) (r : PriceRec) : Except PyErr (Price × BuildSt) :=
  match parseNumberChars r.valueText.data with
  | .error e => .error e
  | .ok v =>
    let rc := commodity_find st r.currencySpace r.currencyName
    let rm := commodity_find rc.2 r.commoditySpace r.commodityName
    .ok ({ guid := r.guid, commodity := rm.1, currency := rc.1,
           date := r.dateText, value := v }, rm.2)

def pricePhase (st : BuildSt) : List PriceRec → Except PyErr (List Price × BuildSt)
  | [] => .ok ([], st)
  | r :: rest =>
    match price_from_tree st r with
    | .error e => .error e
    | .ok (p, st') =>
      match pricePhase st' rest with
      | .error e => .error e
      | .ok (ps, st'') => .ok (p :: ps, st'')

structure AccountRec where
  name : String
  guid : String
  actype : String
  description : Option String
  parentGuid : Option String
  commoditySpace : Option String
  commodityName : Option String
  commodityScu : Option String
  slots : Option XmlSlots
deriving DecidableEq

structure AccountData where
  name : String
  guid : String
  actype : String
  description : Option String
  commodity : Option ℕ
  commodityScu : Option String
  slots : SlotMap
deriving DecidableEq

/-- `_account_from_tree`: slots are parsed first; a `ROOT` account has no
parent/commodity/scu; otherwise the parent guid and commodity fields are
mandatory (`AttributeError` on a missing element) and the commodity is
looked up in `commoditydict` (`KeyError` when absent). -/
def account_from_tree (cdict : List ((String × String) × ℕ)) (r : AccountRec) :
    Except PyErr (Option String × AccountData) :=
  match slots_from_tree r.slots with
  | .error e => .error e
  | .ok slots =>
    if r.actype = "ROOT" then
      .ok (none,
        { name := r.name, guid := r.guid, actype := r.actype,
          description := r.description, commodity := none, commodityScu := none,
          slots := slots })
    else
      match r.parentGuid with
      | none => .error .attributeError
      | some pg =>
        match r.commoditySpace with
        | none => .error .attributeError
        | some cs =>
          match r.commodityName with
          | none => .error .attributeError
          | some cn =>
            match r.commodityScu with
            | none => .error .attributeError
            | some scu =>
              match List.lookup (cs, cn) cdict with
              | none => .error .keyError
              | some ci =>
                .ok (some pg,
                  { name := r.name, guid := r.guid, actype := r.actype,
                    description := r.description, commodity := some ci,
                    commodityScu := some scu, slots := slots })

/-- Pass 1 of the account loop: convert each record, remember the last
`ROOT` account, and fill `accountdict` / `parentdict` (Python dict
assignment). -/
def accountsPass1 (cdict : List ((String × String) × ℕ)) (root : Option String)
    (adict : List (String × AccountData)) (pdict : List (String × Option String)) :
    List AccountRec →
      Except PyErr (Option String × List (String × AccountData) × List (String × Option String))
  | [] => .ok (root, adict, pdict)
  | r :: rest =>
    match account_from_tree cdict r with
    | .error e => .error e
    | .ok (pg, acc) =>
      accountsPass1 cdict (if acc.actype = "ROOT" then some acc.guid else root)
        (dictInsert adict acc.guid acc) (dictInsert pdict acc.guid pg) rest

/-- `parent.children.append(acc)` on the guid-keyed children map. -/
def childAppend (d : List (String × List String)) (k g : String) :
    List (String × List String) :=
  dictInsert d k (((List.lookup k d).getD []) ++ [g])

/-- Pass 2 of the account loop:

    for acc in list(accountdict.values()):
        if acc.parent is None and acc.actype != 'ROOT':
            parent = accountdict[parentdict[acc.guid]]
            acc.parent = parent
            parent.children.append(acc)
            accounts.append(acc)

`pm` is the parent link (set only here), `cm` the children lists, `al` the
flat non-root account list. -/
def accountsPass2 (adict : List (String × AccountData))
    (pdict : List (String × Option String)) (pm : List (String × String))
    (cm : List (String × List String)) (al : List String) :
    List AccountData →
      Except PyErr (List (String × String) × List (String × List String) × List String)
  | [] => .ok (pm, cm, al)
  | acc :: rest =>
    if (List.lookup acc.guid pm).isNone ∧ acc.actype ≠ "ROOT" then
      match List.lookup acc.guid pdict with
      | some (some pg) =>
        match List.lookup pg adict with
        | some _ =>
          accountsPass2 adict pdict (dictInsert pm acc.guid pg)
            (childAppend cm pg acc.guid) (al ++ [acc.guid]) rest
        | none => .error .keyError
      | some none => .error .keyError
      | none => .error .keyError
    else accountsPass2 adict pdict pm cm al rest

structure SplitRec where
  guid : String
  memo : Option String
  reconciledState : String
  reconcileDate : Option String
  valueText : String
  quantityText : String
  accountGuid : String
  slots : Option XmlSlots
  action : Option String
deriving DecidableEq

structure Split where
  guid : String
  memo : Option String
  reconciledState : String
  reconcileDate : Option String
  value : PyNum
  quantity : PyNum
  accountGuid : String
  transGuid : String
  action : Option String
  slots : SlotMap
deriving DecidableEq

/-- `account.splits.append(split)` on the guid-keyed splits map. -/
def splitAppend (d : List (String × List Split)) (k : String) (sp : Split) :
    List (String × List Split) :=
  dictInsert d k (((List.lookup k d).getD []) ++ [sp])

/-- `_split_from_tree`: value and quantity via `_parse_number`, the owning
account resolved through `accountdict` (`KeyError` if absent), slots
parsed, and the split appended to the account's split list. -/
def split_from_tree (adict : List (String × AccountData)) (transGuid : String)
    (sm : List (String × List Split)) (r : SplitRec) :
    Except PyErr (Split × List (String × List Split)) :=
  match parseNumberChars r.valueText.data with
  | .error e => .error e
  | .ok value =>
    match parseNumberChars r.quantityText.data with
    | .error e => .error e
    | .ok quantity =>
      match List.lookup r.accountGuid adict with
      | none => .error .keyError
      | some _ =>
        match slots_from_tree r.slots with
        | .error e => .error e
        | .ok slots =>
          let sp : Split :=
            { guid := r.guid, memo := r.memo,
              reconciledState := r.reconciledState, reconcileDate := r.reconcileDate,
              value := value, quantity := quantity, accountGuid := r.accountGuid,
              transGuid := transGuid, action := r.action, slots := slots }
          .ok (sp, splitAppend sm r.accountGuid sp)

def splitsPhase (adict : List (String × AccountData)) (tg : String)
    (sm : List (String × List Split)) :
    List SplitRec → Except PyErr (List Split × List (String × List Split))
  | [] => .ok ([], sm)
  | r :: rest =>
    match split_from_tree adict tg sm r with
    | .error e => .error e
    | .ok (sp, sm') =>
      match splitsPhase adict tg sm' rest with
      | .error e => .error e
      | .ok (sps, sm'') => .ok (sp :: sps, sm'')

structure TransRec where
  guid : String
  currencySpace : String
  currencyName : String
  datePosted : String
  dateEntered : String
  description : Option String
  num : Option String
  slots : Option XmlSlots
  splits : List SplitRec
deriving DecidableEq

structure Transaction where
  guid : String
  currency : ℕ
  date : String
  dateEntered : String
  description : Option String
  num : Option String
  splits : List Split
  slots : SlotMap
deriving DecidableEq

/-- `_transaction_from_tree`: currency through `commoditydict`
(`KeyError` when absent), dates kept as text, `num or None`, slots, then
the child splits in order. -/
def transaction_from_tree (cdict : List ((String × String) × ℕ))
    (adict : List (String × AccountData)) (sm : List (String × List Split))
    (r : TransRec) : Except PyErr (Transaction × List (String × List Split)) :=
  match List.lookup (r.currencySpace, r.currencyName) cdict with
  | none => .error .keyError
  | some cur =>
    match slots_from_tree r.slots with
    | .error e => .error e
    | .ok slots =>
      match splitsPhase adict r.guid sm r.splits with
      | .error e => .error e
      | .ok (sps, sm') =>
        .ok
          ({ guid := r.guid, currency := cur, date := r.datePosted,
             dateEntered := r.dateEntered, description := r.description,
             num := r.num.bind (fun s => if s = "" then none else some s),
             splits := sps, slots := slots }, sm')

def transPhase (cdict : List ((String × String) × ℕ))
    (adict : List (String × AccountData)) (sm : List (String × List Split)) :
    List TransRec → Except PyErr (List Transaction × List (String × List Split))
  | [] => .ok ([], sm)
  | r :: rest =>
    match transaction_from_tree cdict adict sm r with
    | .error e => .error e
    | .ok (t, sm') =>
      match transPhase cdict adict sm' rest with
      | .error e => .error e
      | .ok (ts, sm'') => .ok (t :: ts, sm'')

structure CustomerRec where
  guid : String
  name : String
  addr1 : Option String
  addr2 : Option String
  addr3 : Option String
  addr4 : Option String
deriving DecidableEq

structure Customer where
  guid : String
  name : String
  address : List String
deriving DecidableEq

/-- `_customer_from_tree`: the address is built only from the lines
actually present, in order. -/
def customer_from_tree (r : CustomerRec) : Customer :=
  { guid := r.guid, name := r.name,
    address := [r.addr1, r.addr2, r.addr3, r.addr4].filterMap id }

def customersPhase (d : List (String × Customer)) :
    List CustomerRec → List (String × Customer)
  | [] => d
  | r :: rest =>
    customersPhase (dictInsert d (customer_from_tree r).guid (customer_from_tree r)) rest

structure VendorRec where
  guid : String
  name : String
deriving DecidableEq

structure Vendor where
  guid : String
  name : String
deriving DecidableEq

def vendor_from_tree (r : VendorRec) : Vendor := { guid := r.guid, name := r.name }

def vendorsPhase (d : List (String × Vendor)) : List VendorRec → List (String × Vendor)
  | [] => d
  | r :: rest => vendorsPhase (dictInsert d (vendor_from_tree r).guid (vendor_from_tree r)) rest

structure TteRec where
  amountText : String
  ttetype : String
deriving DecidableEq

structure Taxtableentry where
  amount : PyNum
  ttetype : String
deriving DecidableEq

structure TaxtableRec where
  guid : String
  name : String
  entries : List TteRec
deriving DecidableEq

structure Taxtable where
  guid : String
  name : String
  entries : List Taxtableentry
deriving DecidableEq

/-- `_taxtableentry_from_tree`: the amount through `_parse_number`. -/
def tte_from_tree (r : TteRec) : Except PyErr Taxtableentry :=
  match parseNumberChars r.amountText.data with
  | .error e => .error e
  | .ok v => .ok { amount := v, ttetype := r.ttetype }

def ttesPhase : List TteRec → Except PyErr (List Taxtableentry)
  | [] => .ok []
  | r :: rest =>
    match tte_from_tree r with
    | .error e => .error e
    | .ok t =>
      match ttesPhase rest with
      | .error e => .error e
      | .ok ts => .ok (t :: ts)

def taxtable_from_tree (r : TaxtableRec) : Except PyErr Taxtable :=
  match ttesPhase r.entries with
  | .error e => .error e
  | .ok ts => .ok { guid := r.guid, name := r.name, entries := ts }

def taxtablesPhase (d : List (String × Taxtable)) :
    List TaxtableRec → Except PyErr (List (String × Taxtable))
  | [] => .ok d
  | r :: rest =>
    match taxtable_from_tree r with
    | .error e => .error e
    | .ok t => taxtablesPhase (dictInsert d t.guid t) rest

structure EntryRec where
  guid : String
  action : Option String
  description : Option String
  qtyText : Option String
  priceText : Option String
  invoiceGuid : Option String
  iTaxable : Option String
  iTaxtable : Option String
deriving DecidableEq

structure Entry where
  guid : String
  action : Option String
  description : Option String
  qty : Option PyNum
  price : Option PyNum
  invoiceGuid : Option String
  taxable : Option String
  taxtable : Option Taxtable
deriving DecidableEq

def optParseNumber : Option String → Except PyErr (Option PyNum)
  | none => .ok none
  | some s =>
    match parseNumberChars s.data with
    | .error e => .error e
    | .ok v => .ok (some v)

/-- `_entry_from_tree`: optional qty/price through `_parse_number`, the
owning invoice guid captured for later aggregation, and — only when
`entry:i-taxable` is present — the taxtable resolved by guid
(`AttributeError` when `entry:i-taxtable` is missing, `KeyError` when the
guid is unknown). -/
def entry_from_tree (tdict : List (String × Taxtable)) (r : EntryRec) :
    Except PyErr Entry :=
  match optParseNumber r.qtyText with
  | .error e => .error e
  | .ok qty =>
    match optParseNumber r.priceText with
    | .error e => .error e
    | .ok price =>
      match r.iTaxable with
      | none =>
        .ok { guid := r.guid, action := r.action, description := r.description,
              qty := qty, price := price, invoiceGuid := r.invoiceGuid,
              taxable := none, taxtable := none }
      | some t =>
        match r.iTaxtable with
        | none => .error .attributeError
        | some tg =>
          match List.lookup tg tdict with
          | none => .error .keyError
          | some tt =>
            .ok { guid := r.guid, action := r.action, description := r.description,
                  qty := qty, price := price, invoiceGuid := r.invoiceGuid,
                  taxable := some t, taxtable := some tt }

def entriesPhase (tdict : List (String × Taxtable)) (d : List (String × Entry)) :
    List EntryRec → Except PyErr (List (String × Entry))
  | [] => .ok d
  | r :: rest =>
    match entry_from_tree tdict r with
    | .error e => .error e
    | .ok en => entriesPhase tdict (dictInsert d en.guid en) rest

structure InvoiceRec where
  guid : String
  id : String
  openedDate : String
  ownerType : String
  ownerId : String
  active : String
deriving DecidableEq

structure Invoice where
  active : String
  customer : Option Customer
  date : String
  id : String
  entries : List Entry
  guid : String
  vendor : Option Vendor
deriving DecidableEq

/-- `_invoice_from_tree`: the owner type discriminator selects the
customer or the vendor dictionary (`KeyError` on an unknown id); any
other owner type leaves both fields `None`.  The entry list scans the
whole entry dictionary and keeps every entry whose owning-invoice guid
equals this invoice's guid. -/
def invoice_from_tree (custd : List (String × Customer)) (entd : List (String × Entry))
    (vend : List (String × Vendor)) (r : InvoiceRec) : Except PyErr Invoice :=
  match (if r.ownerType = "gncCustomer" then
          match List.lookup r.ownerId custd with
          | none => Except.error PyErr.keyError
          | some c => Except.ok (some c)
         else Except.ok none) with
  | .error e => .error e
  | .ok customer =>
    match (if r.ownerType = "gncVendor" then
            match List.lookup r.ownerId vend with
            | none => Except.error PyErr.keyError
            | some v => Except.ok (some v)
           else Except.ok none) with
    | .error e => .error e
    | .ok vendor =>
      .ok { active := r.active, customer := customer, date := r.openedDate,
            id := r.id,
            entries := (entd.map Prod.snd).filter
              (fun en => decide (en.invoiceGuid = some r.guid)),
            guid := r.guid, vendor := vendor }

def invoicesPhase (custd : List (String × Customer)) (entd : List (String × Entry))
    (vend : List (String × Vendor)) : List InvoiceRec → Except PyErr (List Invoice)
  | [] => .ok []
  | r :: rest =>
    match invoice_from_tree custd entd vend r with
    | .error e => .error e
    | .ok inv =>
      match invoicesPhase custd entd vend rest with
      | .error e => .error e
      | .ok invs => .ok (inv :: invs)

/-- The relevant content of a GnuCash v2 document's book element, each
record family in document order. -/
structure GnucashDoc where
  bookGuid : String
  commodities : List (String × String)
  prices : List PriceRec
  accounts : List AccountRec
  transactions : List TransRec
  customers : List CustomerRec
  vendors : List VendorRec
  taxtables : List TaxtableRec
  entries : List EntryRec
  invoices : List InvoiceRec
  slots : Option XmlSlots
deriving DecidableEq

/-- The `Book` graph, with Python object references replaced by guids
(accounts, splits) and arena indices (commodities). -/
structure Book where
  guid : String
  arena : List (String × String)
  commodities : List ℕ
  prices : List Price
  rootAccount : Option String
  accounts : List String
  accountdict : List (String × AccountData)
  parentMap : List (String × String)
  childrenMap : List (String × List String)
  splitsMap : List (String × List Split)
  transactions : List Transaction
  invoices : List Invoice
  slots : SlotMap
deriving DecidableEq

/-- `_book_from_tree`, phase by phase in source order: commodities,
prices, accounts (two passes), transactions, customers, vendors,
taxtables, entries, invoices, book slots. -/
def commodityRes (doc : GnucashDoc) : List ℕ × BuildSt :=
  commodityPhase { arena := [], cdict := [] } doc.commodities

def book_from_tree (doc : GnucashDoc) : Except PyErr Book :=
  match pricePhase (commodityRes doc).2 doc.prices with
  | .error e => .error e
  | .ok (prices, st) =>
    match accountsPass1 st.cdict none [] [] doc.accounts with
    | .error e => .error e
    | .ok (root, adict, pdict) =>
      match accountsPass2 adict pdict [] [] [] (adict.map Prod.snd) with
      | .error e => .error e
      | .ok (pm, cm, al) =>
        match transPhase st.cdict adict [] doc.transactions with
        | .error e => .error e
        | .ok (txs, sm) =>
          match taxtablesPhase [] doc.taxtables with
          | .error e => .error e
          | .ok tdict =>
            match entriesPhase tdict [] doc.entries with
            | .error e => .error e
            | .ok entd =>
              match invoicesPhase (customersPhase [] doc.customers) entd
                  (vendorsPhase [] doc.vendors) doc.invoices with
              | .error e => .error e
              | .ok invoices =>
                match slots_from_tree doc.slots with
                | .error e => .error e
                | .ok slots =>
                  .ok { guid := doc.bookGuid, arena := st.arena,
                        commodities := (commodityRes doc).1, prices := prices,
                        rootAccount := root, accounts := al, accountdict := adict,
                        parentMap := pm, childrenMap := cm, splitsMap := sm,
                        transactions := txs, invoices := invoices, slots := slots }

/-! ## Association-list lemmas for the pipeline proofs -/

theorem lookup_cons_self {α β : Type} [BEq α] [LawfulBEq α] (k : α) (v : β)
    (d : List (α × β)) : List.lookup k ((k, v) :: d) = some v := by
  simp [List.lookup]

theorem lookup_cons_ne {α β : Type} [BEq α] [LawfulBEq α] {k k' : α} (v : β)
    (d : List (α × β)) (h : k ≠ k') : List.lookup k ((k', v) :: d) = List.lookup k d := by
  simp [List.lookup, beq_eq_false_iff_ne.mpr h]

theorem lookup_append_left {α β : Type} [BEq α] [LawfulBEq α] {k : α} {v : β}
    {d : List (α × β)} (d' : List (α × β)) (h : List.lookup k d = some v) :
    List.lookup k (d ++ d') = some v := by
  induction d with
  | nil => simp [List.lookup] at h
  | cons p t ih =>
    obtain ⟨k', v'⟩ := p
    by_cases hk : k = k'
    · subst hk
      rw [lookup_cons_self] at h
      rw [List.cons_append, lookup_cons_self]
      exact h
    · rw [lookup_cons_ne _ _ hk] at h
      rw [List.cons_append, lookup_cons_ne _ _ hk]
      exact ih h

theorem lookup_append_right {α β : Type} [BEq α] [LawfulBEq α] {k : α}
    {d : List (α × β)} (d' : List (α × β)) (h : List.lookup k d = none) :
    List.lookup k (d ++ d') = List.lookup k d' := by
  induction d with
  | nil => simp
  | cons p t ih =>
    obtain ⟨k', v'⟩ := p
    by_cases hk : k = k'
    · subst hk
      rw [lookup_cons_self] at h
      exact absurd h (by simp)
    · rw [lookup_cons_ne _ _ hk] at h
      rw [List.cons_append, lookup_cons_ne _ _ hk]
      exact ih h

theorem lookup_some_mem {α β : Type} [BEq α] [LawfulBEq α] {k : α} {v : β} :
    ∀ {d : List (α × β)}, List.lookup k d = some v → (k, v) ∈ d := by
  intro d
  induction d with
  | nil => intro h; simp [List.lookup] at h
  | cons p t ih =>
    obtain ⟨k', v'⟩ := p
    intro h
    by_cases hk : k = k'
    · subst hk
      rw [lookup_cons_self] at h
      injection h with h
      subst h
      exact List.mem_cons_self _ _
    · rw [lookup_cons_ne _ _ hk] at h
      exact List.mem_cons_of_mem _ (ih h)

theorem lookup_dictInsert_self {α : Type} (d : List (String × α)) (k : String) (v : α) :
    List.lookup k (dictInsert d k v) = some v := by
  induction d with
  | nil => simp [dictInsert, List.lookup]
  | cons p t ih =>
    obtain ⟨k', v'⟩ := p
    rw [dictInsert]
    by_cases hk : k' = k
    · subst hk
      rw [if_pos rfl, lookup_cons_self]
    · rw [if_neg hk, lookup_cons_ne _ _ (fun he => hk he.symm)]
      exact ih

theorem lookup_dictInsert_ne {α : Type} (d : List (String × α)) {k k' : String} (v : α)
    (h : k' ≠ k) : List.lookup k' (dictInsert d k v) = List.lookup k' d := by
  induction d with
  | nil => simp [dictInsert, List.lookup, beq_eq_false_iff_ne.mpr h]
  | cons p t ih =>
    obtain ⟨ka, va⟩ := p
    rw [dictInsert]
    by_cases hk : ka = k
    · subst hk
      by_cases hk' : k' = ka
      · exact absurd hk' h
      · rw [if_pos rfl, lookup_cons_ne _ _ hk', lookup_cons_ne _ _ hk']
    · rw [if_neg hk]
      by_cases hk' : k' = ka
      · subst hk'
        rw [lookup_cons_self, lookup_cons_self]
      · rw [lookup_cons_ne _ _ hk', lookup_cons_ne _ _ hk']
        exact ih

theorem dictInsert_mem {α : Type} {d : List (String × α)} {k : String} {v : α} :
    ∀ {x : String × α}, x ∈ dictInsert d k v → x ∈ d ∨ x = (k, v) := by
  induction d with
  | nil => intro x h; simp [dictInsert] at h; right; exact h
  | cons p t ih =>
    obtain ⟨ka, va⟩ := p
    intro x h
    rw [dictInsert] at h
    by_cases hk : ka = k
    · rw [if_pos hk] at h
      rcases List.mem_cons.mp h with h | h
      · right; rw [h, hk]
      · left; exact List.mem_cons_of_mem _ h
    · rw [if_neg hk] at h
      rcases List.mem_cons.mp h with h | h
      · left; rw [h]; exact List.mem_cons_self _ _
      · rcases ih h with h | h
        · left; exact List.mem_cons_of_mem _ h
        · right; exact h

/-! ## C2: commodity instances are shared

A commodity reference is an arena index.  `stInv` says the arena and
`commoditydict` are inverse to each other; `refOK` says an index was
issued by `_commodity_find`. -/

def stInv (st : BuildSt) : Prop :=
  (∀ k i, List.lookup k st.cdict = some i → st.arena[i]? = some k) ∧
  (∀ i k, st.arena[i]? = some k → List.lookup k st.cdict = some i)

def refOK (st : BuildSt) (i : ℕ) : Prop :=
  ∃ k, List.lookup k st.cdict = some i

theorem commodity_find_spec (st : BuildSt) (s n : String) (h : stInv st) :
    stInv (commodity_find st s n).2 ∧
    List.lookup (s, n) ((commodity_find st s n).2).cdict = some (commodity_find st s n).1 ∧
    (∀ j, refOK st j → refOK (commodity_find st s n).2 j) := by
  obtain ⟨hA, hB⟩ := h
  cases hl : List.lookup (s, n) st.cdict with
  | some i =>
    unfold commodity_find
    rw [hl]
    exact ⟨⟨hA, hB⟩, hl, fun j hj => hj⟩
  | none =>
    unfold commodity_find
    rw [hl]
    refine ⟨⟨?_, ?_⟩, ?_, ?_⟩
    · intro k i hki
      cases hk2 : List.lookup k st.cdict with
      | some j =>
        rw [lookup_append_left _ hk2] at hki
        injection hki with hki
        subst hki
        have hj := hA k j hk2
        have hlt : j < st.arena.length := (List.getElem?_eq_some.mp hj).1
        rw [List.getElem?_append_left hlt]
        exact hj
      | none =>
        rw [lookup_append_right _ hk2] at hki
        by_cases hks : k = (s, n)
        · subst hks
          rw [lookup_cons_self] at hki
          injection hki with hki
          subst hki
          exact List.getElem?_concat_length _ _
        · rw [lookup_cons_ne _ _ hks] at hki
          simp [List.lookup] at hki
    · intro i k hik
      rcases Nat.lt_trichotomy i st.arena.length with hlt | heq | hgt
      · rw [List.getElem?_append_left hlt] at hik
        exact lookup_append_left _ (hB i k hik)
      · subst heq
        rw [List.getElem?_concat_length] at hik
        injection hik with hik
        subst hik
        rw [lookup_append_right _ hl, lookup_cons_self]
      · rw [List.getElem?_eq_none (by simp; omega)] at hik
        cases hik
    · rw [lookup_append_right _ hl, lookup_cons_self]
    · intro j hj
      obtain ⟨k, hk⟩ := hj
      exact ⟨k, lookup_append_left _ hk⟩

theorem commodityPhase_spec : ∀ (cs : List (String × String)) (st : BuildSt), stInv st →
    stInv (commodityPhase st cs).2 ∧
    (∀ i ∈ (commodityPhase st cs).1, refOK (commodityPhase st cs).2 i) ∧
    (∀ i, refOK st i → refOK (commodityPhase st cs).2 i)
  | [], st, h => by
    refine ⟨h, ?_, fun i hi => hi⟩
    intro i hi
    simp [commodityPhase] at hi
  | (s, n) :: rest, st, h => by
    obtain ⟨h1, h2, h3⟩ := commodity_find_spec st s n h
    obtain ⟨ih1, ih2, ih3⟩ := commodityPhase_spec rest (commodity_find st s n).2 h1
    have e1 : (commodityPhase st ((s, n) :: rest)).1
        = (commodity_find st s n).1 :: (commodityPhase (commodity_find st s n).2 rest).1 := rfl
    have e2 : (commodityPhase st ((s, n) :: rest)).2
        = (commodityPhase (commodity_find st s n).2 rest).2 := rfl
    rw [e1, e2]
    refine ⟨ih1, ?_, fun i hi => ih3 i (h3 i hi)⟩
    intro i hi
    rcases List.mem_cons.mp hi with hi | hi
    · subst hi
      exact ih3 _ ⟨(s, n), h2⟩
    · exact ih2 i hi

theorem pricePhase_spec : ∀ (rs : List PriceRec) (st : BuildSt) (ps : List Price)
    (st' : BuildSt), pricePhase st rs = .ok (ps, st') → stInv st →
    stInv st' ∧ (∀ p ∈ ps, refOK st' p.commodity ∧ refOK st' p.currency) ∧
    (∀ i, refOK st i → refOK st' i)
  | [], st, ps, st', h, hinv => by
    simp only [pricePhase, Except.ok.injEq, Prod.mk.injEq] at h
    obtain ⟨rfl, rfl⟩ := h
    exact ⟨hinv, by simp, fun i hi => hi⟩
  | r :: rest, st, ps, st', h, hinv => by
    simp only [pricePhase] at h
    split at h
    · cases h
    · rename_i p st1 hp
      split at h
      · cases h
      · rename_i ps1 st2 hr
        simp only [Except.ok.injEq, Prod.mk.injEq] at h
        obtain ⟨rfl, rfl⟩ := h
        unfold price_from_tree at hp
        split at hp
        · cases hp
        · rename_i v hv
          simp only [Except.ok.injEq, Prod.mk.injEq] at hp
          obtain ⟨rfl, rfl⟩ := hp
          obtain ⟨hc1, hc2, hc3⟩ :=
            commodity_find_spec st r.currencySpace r.currencyName hinv
          obtain ⟨hm1, hm2, hm3⟩ :=
            commodity_find_spec (commodity_find st r.currencySpace r.currencyName).2
              r.commoditySpace r.commodityName hc1
          obtain ⟨ih1, ih2, ih3⟩ := pricePhase_spec rest _ ps1 st2 hr hm1
          refine ⟨ih1, ?_, fun i hi => ih3 i (hm3 i (hc3 i hi))⟩
          intro q hq
          rcases List.mem_cons.mp hq with hq | hq
          · subst hq
            constructor
            · exact ih3 _ ⟨(r.commoditySpace, r.commodityName), hm2⟩
            · exact ih3 _ (hm3 _ ⟨(r.currencySpace, r.currencyName), hc2⟩)
          · exact ih2 q hq

theorem account_from_tree_commodity (cdict : List ((String × String) × ℕ))
    (r : AccountRec) (pg : Option String) (acc : AccountData)
    (h : account_from_tree cdict r = .ok (pg, acc)) :
    ∀ ci, acc.commodity = some ci → ∃ k, List.lookup k cdict = some ci := by
  unfold account_from_tree at h
  split at h
  · cases h
  · rename_i slots hs
    split at h
    · simp only [Except.ok.injEq, Prod.mk.injEq] at h
      obtain ⟨rfl, rfl⟩ := h
      intro ci hci
      cases hci
    · split at h
      · cases h
      · rename_i pg' hpg
        split at h
        · cases h
        · rename_i cs hcs
          split at h
          · cases h
          · rename_i cn hcn
            split at h
            · cases h
            · rename_i scu hscu
              split at h
              · cases h
              · rename_i ci' hci'
                simp only [Except.ok.injEq, Prod.mk.injEq] at h
                obtain ⟨rfl, rfl⟩ := h
                intro ci hci
                injection hci with hci
                subst hci
                exact ⟨(cs, cn), hci'⟩

theorem accountsPass1_refs : ∀ (recs : List AccountRec)
    (cdict : List ((String × String) × ℕ)) (root : Option String)
    (adict : List (String × AccountData)) (pdict : List (String × Option String))
    (root' : Option String) (adict' : List (String × AccountData))
    (pdict' : List (String × Option String)),
    accountsPass1 cdict root adict pdict recs = .ok (root', adict', pdict') →
    (∀ kv ∈ adict, ∀ ci, kv.2.commodity = some ci → ∃ k, List.lookup k cdict = some ci) →
    ∀ kv ∈ adict', ∀ ci, kv.2.commodity = some ci → ∃ k, List.lookup k cdict = some ci
  | [], cdict, root, adict, pdict, root', adict', pdict', h, hd => by
    simp only [accountsPass1, Except.ok.injEq, Prod.mk.injEq] at h
    obtain ⟨rfl, rfl, rfl⟩ := h
    exact hd
  | r :: rest, cdict, root, adict, pdict, root', adict', pdict', h, hd => by
    simp only [accountsPass1] at h
    split at h
    · cases h
    · rename_i pg acc ha
      refine accountsPass1_refs rest cdict _ _ _ root' adict' pdict' h ?_
      intro kv hkv ci hci
      rcases dictInsert_mem hkv with hkv | hkv
      · exact hd kv hkv ci hci
      · subst hkv
        exact account_from_tree_commodity cdict r pg acc ha ci hci

theorem transaction_from_tree_currency (cdict : List ((String × String) × ℕ))
    (adict : List (String × AccountData)) (sm : List (String × List Split))
    (r : TransRec) (t : Transaction) (sm' : List (String × List Split))
    (h : transaction_from_tree cdict adict sm r = .ok (t, sm')) :
    ∃ k, List.lookup k cdict = some t.currency := by
  unfold transaction_from_tree at h
  split at h
  · cases h
  · rename_i cur hcur
    split at h
    · cases h
    · rename_i slots hs
      split at h
      · cases h
      · rename_i sps sm2 hsp
        simp only [Except.ok.injEq, Prod.mk.injEq] at h
        obtain ⟨rfl, rfl⟩ := h
        exact ⟨(r.currencySpace, r.currencyName), hcur⟩

theorem transPhase_refs : ∀ (rs : List TransRec)
    (cdict : List ((String × String) × ℕ)) (adict : List (String × AccountData))
    (sm : List (String × List Split)) (ts : List Transaction)
    (sm' : List (String × List Split)),
    transPhase cdict adict sm rs = .ok (ts, sm') →
    ∀ t ∈ ts, ∃ k, List.lookup k cdict = some t.currency
  | [], cdict, adict, sm, ts, sm', h => by
    simp only [transPhase, Except.ok.injEq, Prod.mk.injEq] at h
    obtain ⟨rfl, rfl⟩ := h
    intro t ht
    cases ht
  | r :: rest, cdict, adict, sm, ts, sm', h => by
    simp only [transPhase] at h
    split at h
    · cases h
    · rename_i t1 sm1 ht1
      split at h
      · cases h
      · rename_i ts1 sm2 hts
        simp only [Except.ok.injEq, Prod.mk.injEq] at h
        obtain ⟨rfl, rfl⟩ := h
        intro t ht
        rcases List.mem_cons.mp ht with ht | ht
        · subst ht
          exact transaction_from_tree_currency cdict adict sm r t sm1 ht1
        · exact transPhase_refs rest cdict adict sm1 ts1 sm2 hts t ht

/-- All the arena indices a `Book` stores: the top-level commodity list,
each price's commodity and currency, each account's commodity, each
transaction's currency. -/
def bookRefs (b : Book) : List ℕ :=
  b.commodities ++ b.prices.map (fun p => p.commodity) ++
    b.prices.map (fun p => p.currency) ++
    b.accountdict.filterMap (fun kv => kv.2.commodity) ++
    b.transactions.map (fun t => t.currency)

/-- C2: for every (namespace, symbol) pair, any two commodity references
stored anywhere in a loaded `Book` — the top-level commodity list, a
price's commodity or currency, an account's commodity, a transaction's
currency — that carry the same (namespace, symbol) pair are the identical
shared instance: every stored reference is a valid arena index, and two
stored references with equal arena entries are equal indices. -/
theorem commodity_shared_instance (doc : GnucashDoc) (b : Book)
    (h : book_from_tree doc = .ok b) :
    (∀ i ∈ bookRefs b, i < b.arena.length) ∧
    (∀ i ∈ bookRefs b, ∀ j ∈ bookRefs b, b.arena[i]? = b.arena[j]? → i = j) := by
  unfold book_from_tree at h
  split at h
  · cases h
  · rename_i prices st hp
    split at h
    · cases h
    · rename_i root adict pdict h1
      split at h
      · cases h
      · rename_i pm cm al h2
        split at h
        · cases h
        · rename_i txs sm h3
          split at h
          · cases h
          · rename_i tdict h4
            split at h
            · cases h
            · rename_i entd h5
              split at h
              · cases h
              · rename_i invoices h6
                split at h
                · cases h
                · rename_i slots h7
                  injection h with h
                  subst h
                  have hinv0 : stInv { arena := [], cdict := [] } := by
                    constructor
                    · intro k i hk
                      simp [List.lookup] at hk
                    · intro i k hk
                      simp at hk
                  obtain ⟨hcinv, hcrefs, _⟩ :=
                    commodityPhase_spec doc.commodities { arena := [], cdict := [] } hinv0
                  obtain ⟨hsinv, hprefs, hmono⟩ :=
                    pricePhase_spec doc.prices (commodityRes doc).2 prices st hp hcinv
                  have hkey : ∀ i ∈ bookRefs
                      { guid := doc.bookGuid, arena := st.arena,
                        commodities := (commodityRes doc).1, prices := prices,
                        rootAccount := root, accounts := al, accountdict := adict,
                        parentMap := pm, childrenMap := cm, splitsMap := sm,
                        transactions := txs, invoices := invoices, slots := slots },
                      refOK st i := by
                    intro i hi
                    unfold bookRefs at hi
                    dsimp only at hi
                    simp only [List.mem_append] at hi
                    rcases hi with ((((hi | hi) | hi) | hi) | hi)
                    · exact hmono i (hcrefs i hi)
                    · rcases List.mem_map.mp hi with ⟨p, hpm, rfl⟩
                      exact (hprefs p hpm).1
                    · rcases List.mem_map.mp hi with ⟨p, hpm, rfl⟩
                      exact (hprefs p hpm).2
                    · rcases List.mem_filterMap.mp hi with ⟨kv, hkv, hci⟩
                      exact accountsPass1_refs doc.accounts st.cdict none [] [] root
                        adict pdict h1 (by intro kv hkv; cases hkv) kv hkv i hci
                    · rcases List.mem_map.mp hi with ⟨t, htm, rfl⟩
                      exact transPhase_refs doc.transactions st.cdict adict [] txs sm h3 t htm
                  constructor
                  · intro i hi
                    obtain ⟨k, hk⟩ := hkey i hi
                    exact (List.getElem?_eq_some.mp (hsinv.1 k i hk)).1
                  · intro i hi j hj hij
                    obtain ⟨ki, hki⟩ := hkey i hi
                    have hai := hsinv.1 ki i hki
                    have haj : st.arena[j]? = some ki := by
                      dsimp only at hij
                      rw [← hij]
                      exact hai
                    have hbi := hsinv.2 i ki hai
                    have hbj := hsinv.2 j ki haj
                    exact Option.some.inj (hbi.symm.trans hbj)

def exDoc2 : GnucashDoc :=
  { bookGuid := "b0",
    commodities := [("CURRENCY", "EUR")],
    prices := [{ guid := "p1", valueText := "100/100", dateText := "2024-01-01",
                 currencySpace := "CURRENCY", currencyName := "EUR",
                 commoditySpace := "FUND", commodityName := "XF" }],
    accounts :=
      [{ name := "Root Account", guid := "r0", actype := "ROOT",
         description := none, parentGuid := none, commoditySpace := none,
         commodityName := none, commodityScu := none, slots := none },
       { name := "Cash", guid := "a1", actype := "ASSET",
         description := none, parentGuid := some "r0",
         commoditySpace := some "CURRENCY", commodityName := some "EUR",
         commodityScu := some "100", slots := none }],
    transactions :=
      [{ guid := "t1", currencySpace := "CURRENCY", currencyName := "EUR",
         datePosted := "2024-01-02", dateEntered := "2024-01-02",
         description := none, num := none, slots := none,
         splits :=
           [{ guid := "s1", memo := none, reconciledState := "n",
              reconcileDate := none, valueText := "5/1", quantityText := "5/1",
              accountGuid := "a1", slots := none, action := none }] }],
    customers := [], vendors := [], taxtables := [], entries := [],
    invoices := [], slots := none }

def exBook2 : Book := ((book_from_tree exDoc2).toOption).get (by decide)

/-- Witness for C2: a concrete document whose EUR commodity is referenced
from the top-level list, a price's currency, an account and a
transaction. -/
theorem commodity_shared_instance_witness :
    (∀ i ∈ bookRefs exBook2, i < exBook2.arena.length) ∧
    (∀ i ∈ bookRefs exBook2, ∀ j ∈ bookRefs exBook2,
      exBook2.arena[i]? = exBook2.arena[j]? → i = j) :=
  commodity_shared_instance exDoc2 exBook2 (by decide)

/-! ## C3: the two-pass account loop is order-independent -/

theorem account_from_tree_fields (cdict : List ((String × String) × ℕ))
    (r : AccountRec) (pg : Option String) (acc : AccountData)
    (h : account_from_tree cdict r = .ok (pg, acc)) :
    acc.guid = r.guid ∧ acc.actype = r.actype ∧
    (r.actype ≠ "ROOT" → pg = r.parentGuid) := by
  unfold account_from_tree at h
  split at h
  · cases h
  · rename_i slots hs
    split at h
    · rename_i hroot
      simp only [Except.ok.injEq, Prod.mk.injEq] at h
      obtain ⟨rfl, rfl⟩ := h
      exact ⟨rfl, rfl, fun hn => absurd hroot hn⟩
    · rename_i hroot
      split at h
      · cases h
      · rename_i pg' hpg
        split at h
        · cases h
        · rename_i cs hcs
          split at h
          · cases h
          · rename_i cn hcn
            split at h
            · cases h
            · rename_i scu hscu
              split at h
              · cases h
              · rename_i ci hci
                simp only [Except.ok.injEq, Prod.mk.injEq] at h
                obtain ⟨rfl, rfl⟩ := h
                exact ⟨rfl, rfl, fun _ => hpg.symm⟩

theorem accountsPass1_preserve : ∀ (recs : List AccountRec)
    (cdict : List ((String × String) × ℕ)) (root : Option String)
    (adict : List (String × AccountData)) (pdict : List (String × Option String))
    (root' : Option String) (adict' : List (String × AccountData))
    (pdict' : List (String × Option String)),
    accountsPass1 cdict root adict pdict recs = .ok (root', adict', pdict') →
    ∀ g, g ∉ recs.map (fun r => r.guid) →
      List.lookup g adict' = List.lookup g adict ∧
      List.lookup g pdict' = List.lookup g pdict
  | [], cdict, root, adict, pdict, root', adict', pdict', h, g, hg => by
    simp only [accountsPass1, Except.ok.injEq, Prod.mk.injEq] at h
    obtain ⟨rfl, rfl, rfl⟩ := h
    exact ⟨rfl, rfl⟩
  | r :: rest, cdict, root, adict, pdict, root', adict', pdict', h, g, hg => by
    simp only [accountsPass1] at h
    split at h
    · cases h
    · rename_i pg acc ha
      have hgr : g ≠ r.guid := by
        intro he
        exact hg (by simp [he])
      have hgrest : g ∉ rest.map (fun r => r.guid) := by
        intro he
        exact hg (by simp [List.mem_map] at he ⊢; right; exact he)
      have hacc := (account_from_tree_fields cdict r pg acc ha).1
      obtain ⟨ih1, ih2⟩ :=
        accountsPass1_preserve rest cdict _ _ _ root' adict' pdict' h g hgrest
      rw [ih1, ih2, hacc]
      exact ⟨lookup_dictInsert_ne _ _ hgr, lookup_dictInsert_ne _ _ hgr⟩

theorem accountsPass1_lookup : ∀ (recs : List AccountRec)
    (cdict : List ((String × String) × ℕ)) (root : Option String)
    (adict : List (String × AccountData)) (pdict : List (String × Option String))
    (root' : Option String) (adict' : List (String × AccountData))
    (pdict' : List (String × Option String)),
    accountsPass1 cdict root adict pdict recs = .ok (root', adict', pdict') →
    (recs.map (fun r => r.guid)).Nodup →
    ∀ r ∈ recs, ∃ pg acc, account_from_tree cdict r = .ok (pg, acc) ∧
      List.lookup r.guid adict' = some acc ∧ List.lookup r.guid pdict' = some pg
  | [], cdict, root, adict, pdict, root', adict', pdict', h, hnd, r, hr => by
    cases hr
  | r0 :: rest, cdict, root, adict, pdict, root', adict', pdict', h, hnd, r, hr => by
    simp only [accountsPass1] at h
    split at h
    · cases h
    · rename_i pg acc ha
      have hacc := (account_from_tree_fields cdict r0 pg acc ha).1
      rcases List.mem_cons.mp hr with hr | hr
      · subst hr
        have hnotin : r.guid ∉ rest.map (fun a => a.guid) := by
          have := hnd
          rw [List.map_cons, List.nodup_cons] at this
          exact this.1
        obtain ⟨h1, h2⟩ :=
          accountsPass1_preserve rest cdict _ _ _ root' adict' pdict' h r.guid hnotin
        refine ⟨pg, acc, ha, ?_, ?_⟩
        · rw [h1, ← hacc, lookup_dictInsert_self]
        · rw [h2, ← hacc, lookup_dictInsert_self]
      · have hnd2 : (rest.map (fun a => a.guid)).Nodup := by
          rw [List.map_cons, List.nodup_cons] at hnd
          exact hnd.2
        exact accountsPass1_lookup rest cdict _ _ _ root' adict' pdict' h hnd2 r hr

theorem accountsPass1_vguid : ∀ (recs : List AccountRec)
    (cdict : List ((String × String) × ℕ)) (root : Option String)
    (adict : List (String × AccountData)) (pdict : List (String × Option String))
    (root' : Option String) (adict' : List (String × AccountData))
    (pdict' : List (String × Option String)),
    accountsPass1 cdict root adict pdict recs = .ok (root', adict', pdict') →
    (∀ kv ∈ adict, kv.2.guid = kv.1) → ∀ kv ∈ adict', kv.2.guid = kv.1
  | [], cdict, root, adict, pdict, root', adict', pdict', h, hd => by
    simp only [accountsPass1, Except.ok.injEq, Prod.mk.injEq] at h
    obtain ⟨rfl, rfl, rfl⟩ := h
    exact hd
  | r :: rest, cdict, root, adict, pdict, root', adict', pdict', h, hd => by
    simp only [accountsPass1] at h
    split at h
    · cases h
    · rename_i pg acc ha
      refine accountsPass1_vguid rest cdict _ _ _ root' adict' pdict' h ?_
      intro kv hkv
      rcases dictInsert_mem hkv with hkv | hkv
      · exact hd kv hkv
      · subst hkv
        rfl

theorem dictInsert_keys_mem {α : Type} {d : List (String × α)} {k : String} {v : α}
    {x : String} : x ∈ (dictInsert d k v).map Prod.fst → x ∈ d.map Prod.fst ∨ x = k := by
  intro hx
  rcases List.mem_map.mp hx with ⟨kv, hkv, rfl⟩
  rcases dictInsert_mem hkv with hkv | hkv
  · exact Or.inl (List.mem_map.mpr ⟨kv, hkv, rfl⟩)
  · subst hkv
    exact Or.inr rfl

theorem dictInsert_keys_nodup {α : Type} {k : String} {v : α} :
    ∀ {d : List (String × α)}, (d.map Prod.fst).Nodup →
      ((dictInsert d k v).map Prod.fst).Nodup := by
  intro d
  induction d with
  | nil => intro _; simp [dictInsert]
  | cons p t ih =>
    obtain ⟨ka, va⟩ := p
    intro hnd
    rw [List.map_cons, List.nodup_cons] at hnd
    rw [dictInsert]
    by_cases hk : ka = k
    · rw [if_pos hk]
      rw [List.map_cons, List.nodup_cons]
      exact hnd
    · rw [if_neg hk]
      rw [List.map_cons, List.nodup_cons]
      constructor
      · intro hmem
        rcases dictInsert_keys_mem hmem with hmem | hmem
        · exact hnd.1 hmem
        · exact hk hmem
      · exact ih hnd.2

theorem accountsPass1_nodup : ∀ (recs : List AccountRec)
    (cdict : List ((String × String) × ℕ)) (root : Option String)
    (adict : List (String × AccountData)) (pdict : List (String × Option String))
    (root' : Option String) (adict' : List (String × AccountData))
    (pdict' : List (String × Option String)),
    accountsPass1 cdict root adict pdict recs = .ok (root', adict', pdict') →
    (adict.map Prod.fst).Nodup → (adict'.map Prod.fst).Nodup
  | [], cdict, root, adict, pdict, root', adict', pdict', h, hd => by
    simp only [accountsPass1, Except.ok.injEq, Prod.mk.injEq] at h
    obtain ⟨rfl, rfl, rfl⟩ := h
    exact hd
  | r :: rest, cdict, root, adict, pdict, root', adict', pdict', h, hd => by
    simp only [accountsPass1] at h
    split at h
    · cases h
    · rename_i pg acc ha
      exact accountsPass1_nodup rest cdict _ _ _ root' adict' pdict' h
        (dictInsert_keys_nodup hd)

theorem childAppend_mem (d : List (String × List String)) (k k' g g' : String)
    (h : g ∈ (List.lookup k d).getD []) :
    g ∈ (List.lookup k (childAppend d k' g')).getD [] := by
  unfold childAppend
  by_cases hk : k = k'
  · subst hk
    rw [lookup_dictInsert_self]
    simp only [Option.getD_some]
    exact List.mem_append_left _ h
  · rw [lookup_dictInsert_ne _ _ hk]
    exact h

theorem childAppend_self (d : List (String × List String)) (k g : String) :
    g ∈ (List.lookup k (childAppend d k g)).getD [] := by
  unfold childAppend
  rw [lookup_dictInsert_self]
  simp

theorem accountsPass2_preserve : ∀ (accs : List AccountData)
    (adict : List (String × AccountData)) (pdict : List (String × Option String))
    (pm : List (String × String)) (cm : List (String × List String))
    (al : List String) (pm' : List (String × String))
    (cm' : List (String × List String)) (al' : List String),
    accountsPass2 adict pdict pm cm al accs = .ok (pm', cm', al') →
    (∀ g pg, List.lookup g pm = some pg → g ∉ accs.map (fun a => a.guid) →
      List.lookup g pm' = some pg) ∧
    (∀ k g, g ∈ (List.lookup k cm).getD [] → g ∈ (List.lookup k cm').getD []) ∧
    (∀ g, g ∈ al → g ∈ al')
  | [], adict, pdict, pm, cm, al, pm', cm', al', h => by
    simp only [accountsPass2, Except.ok.injEq, Prod.mk.injEq] at h
    obtain ⟨rfl, rfl, rfl⟩ := h
    exact ⟨fun g pg hg _ => hg, fun k g hg => hg, fun g hg => hg⟩
  | acc :: rest, adict, pdict, pm, cm, al, pm', cm', al', h => by
    simp only [accountsPass2] at h
    split at h
    · split at h
      · rename_i pg hpd
        split at h
        · rename_i pacc hpacc
          obtain ⟨ih1, ih2, ih3⟩ :=
            accountsPass2_preserve rest adict pdict _ _ _ pm' cm' al' h
          refine ⟨?_, ?_, ?_⟩
          · intro g pg' hg hgn
            have hgacc : g ≠ acc.guid := by
              intro he
              exact hgn (by simp [he])
            have hgrest : g ∉ rest.map (fun a => a.guid) := by
              intro he
              exact hgn (by simp [List.mem_map] at he ⊢; right; exact he)
            exact ih1 g pg' (by rw [lookup_dictInsert_ne _ _ hgacc]; exact hg) hgrest
          · intro k g hg
            exact ih2 k g (childAppend_mem cm k pg g acc.guid hg)
          · intro g hg
            exact ih3 g (List.mem_append_left _ hg)
        · cases h
      · cases h
      · cases h
    · obtain ⟨ih1, ih2, ih3⟩ :=
        accountsPass2_preserve rest adict pdict pm cm al pm' cm' al' h
      refine ⟨?_, ih2, ih3⟩
      intro g pg hg hgn
      have hgrest : g ∉ rest.map (fun a => a.guid) := by
        intro he
        exact hgn (by simp [List.mem_map] at he ⊢; right; exact he)
      exact ih1 g pg hg hgrest

theorem accountsPass2_mem : ∀ (accs : List AccountData)
    (adict : List (String × AccountData)) (pdict : List (String × Option String))
    (pm : List (String × String)) (cm : List (String × List String))
    (al : List String) (pm' : List (String × String))
    (cm' : List (String × List String)) (al' : List String),
    accountsPass2 adict pdict pm cm al accs = .ok (pm', cm', al') →
    (accs.map (fun a => a.guid)).Nodup →
    (∀ a ∈ accs, List.lookup a.guid pm = none) →
    ∀ acc ∈ accs, acc.actype ≠ "ROOT" →
    ∀ pg, List.lookup acc.guid pdict = some (some pg) →
    List.lookup acc.guid pm' = some pg ∧
    acc.guid ∈ (List.lookup pg cm').getD [] ∧ acc.guid ∈ al'
  | [], adict, pdict, pm, cm, al, pm', cm', al', h, hnd, hpm, acc, hacc => by
    cases hacc
  | acc0 :: rest, adict, pdict, pm, cm, al, pm', cm', al', h, hnd, hpm, acc, hacc => by
    intro hroot pg hpd
    rcases List.mem_cons.mp hacc with hacc | hacc
    · subst hacc
      simp only [accountsPass2] at h
      split at h
      · split at h
        · rename_i pg' hpd'
          split at h
          · rename_i pacc hpacc
            rw [hpd'] at hpd
            injection hpd with hpd
            injection hpd with hpd
            subst hpd
            obtain ⟨p1, p2, p3⟩ :=
              accountsPass2_preserve rest adict pdict _ _ _ pm' cm' al' h
            have hnotin : acc.guid ∉ rest.map (fun a => a.guid) := by
              rw [List.map_cons, List.nodup_cons] at hnd
              exact hnd.1
            refine ⟨?_, ?_, ?_⟩
            · exact p1 acc.guid pg' (lookup_dictInsert_self _ _ _) hnotin
            · exact p2 pg' acc.guid (childAppend_self cm pg' acc.guid)
            · exact p3 acc.guid (List.mem_append_right _ (List.mem_singleton.mpr rfl))
          · cases h
        · rename_i hpd'
          rw [hpd'] at hpd
          cases hpd
        · rename_i hpd'
          rw [hpd'] at hpd
          cases hpd
      · rename_i hcond
        exfalso
        apply hcond
        refine ⟨?_, hroot⟩
        rw [hpm acc (List.mem_cons_self _ _)]
        rfl
    · simp only [accountsPass2] at h
      have hnd2 : (rest.map (fun a => a.guid)).Nodup := by
        rw [List.map_cons, List.nodup_cons] at hnd
        exact hnd.2
      split at h
      · split at h
        · rename_i pg0 hpd0
          split at h
          · rename_i pacc hpacc
            refine accountsPass2_mem rest adict pdict _ _ _ pm' cm' al' h hnd2
              ?_ acc hacc hroot pg hpd
            intro a ha
            have hane : a.guid ≠ acc0.guid := by
              intro he
              rw [List.map_cons, List.nodup_cons] at hnd
              exact hnd.1 (List.mem_map.mpr ⟨a, ha, he⟩)
            rw [lookup_dictInsert_ne _ _ hane]
            exact hpm a (List.mem_cons_of_mem _ ha)
          · cases h
        · cases h
        · cases h
      · exact accountsPass2_mem rest adict pdict pm cm al pm' cm' al' h hnd2
          (fun a ha => hpm a (List.mem_cons_of_mem _ ha)) acc hacc hroot pg hpd

/-- C3: account-tree construction is two-pass and order-independent — for
every non-root account record whose declared parent guid matches some
account record (wherever it appears in document order), after loading the
account's parent link is that record's account, the account is in that
parent's children list, and the account is in the book's flat non-root
account list. -/
theorem account_two_pass (doc : GnucashDoc) (b : Book)
    (h : book_from_tree doc = .ok b)
    (hnd : (doc.accounts.map (fun r => r.guid)).Nodup)
    (r p : AccountRec) (hr : r ∈ doc.accounts) (hp : p ∈ doc.accounts)
    (hnr : r.actype ≠ "ROOT") (hpar : r.parentGuid = some p.guid) :
    List.lookup r.guid b.parentMap = some p.guid ∧
    r.guid ∈ (List.lookup p.guid b.childrenMap).getD [] ∧
    r.guid ∈ b.accounts := by
  unfold book_from_tree at h
  split at h
  · cases h
  · rename_i prices st hpr
    split at h
    · cases h
    · rename_i root adict pdict h1
      split at h
      · cases h
      · rename_i pm cm al h2
        split at h
        · cases h
        · rename_i txs sm h3
          split at h
          · cases h
          · rename_i tdict h4
            split at h
            · cases h
            · rename_i entd h5
              split at h
              · cases h
              · rename_i invoices h6
                split at h
                · cases h
                · rename_i slots h7
                  injection h with h
                  subst h
                  obtain ⟨pgr, accr, har, hla, hlp⟩ :=
                    accountsPass1_lookup doc.accounts st.cdict none [] [] root
                      adict pdict h1 hnd r hr
                  obtain ⟨hg, ht, hpg⟩ := account_from_tree_fields _ _ _ _ har
                  have hvg := accountsPass1_vguid doc.accounts st.cdict none [] []
                    root adict pdict h1 (by intro kv hkv; cases hkv)
                  have hknd := accountsPass1_nodup doc.accounts st.cdict none [] []
                    root adict pdict h1 (by simp)
                  have hmem : accr ∈ adict.map Prod.snd :=
                    List.mem_map.mpr ⟨(r.guid, accr), lookup_some_mem hla, rfl⟩
                  have hgnd : ((adict.map Prod.snd).map (fun a => a.guid)).Nodup := by
                    rw [List.map_map]
                    have e : adict.map (fun kv => kv.2.guid) = adict.map Prod.fst :=
                      List.map_congr_left (fun kv hkv => hvg kv hkv)
                    rw [show ((fun a => a.guid) ∘ Prod.snd : String × AccountData → String)
                        = fun kv => kv.2.guid from rfl, e]
                    exact hknd
                  have hpd : List.lookup accr.guid pdict = some (some p.guid) := by
                    rw [hg, hlp, hpg hnr, hpar]
                  have hroot2 : accr.actype ≠ "ROOT" := by
                    rw [ht]
                    exact hnr
                  obtain ⟨c1, c2, c3⟩ :=
                    accountsPass2_mem (adict.map Prod.snd) adict pdict [] [] []
                      pm cm al h2 hgnd (fun a _ => rfl) accr hmem hroot2 p.guid hpd
                  rw [hg] at c1 c2 c3
                  exact ⟨c1, c2, c3⟩

def recRoot3 : AccountRec :=
  { name := "Root Account", guid := "r0", actype := "ROOT",
    description := none, parentGuid := none, commoditySpace := none,
    commodityName := none, commodityScu := none, slots := none }

def recB3 : AccountRec :=
  { name := "Assets", guid := "b", actype := "ASSET",
    description := none, parentGuid := some "r0",
    commoditySpace := some "CURRENCY", commodityName := some "EUR",
    commodityScu := some "100", slots := none }

def recA3 : AccountRec :=
  { name := "Cash", guid := "a", actype := "ASSET",
    description := none, parentGuid := some "b",
    commoditySpace := some "CURRENCY", commodityName := some "EUR",
    commodityScu := some "100", slots := none }

/-- A document in which the child account record precedes its parent's
record (and the root comes last). -/
def exDoc3 : GnucashDoc :=
  { bookGuid := "b3", commodities := [("CURRENCY", "EUR")], prices := [],
    accounts := [recA3, recB3, recRoot3], transactions := [],
    customers := [], vendors := [], taxtables := [], entries := [],
    invoices := [], slots := none }

def exBook3 : Book := ((book_from_tree exDoc3).toOption).get (by decide)

/-- Witness for C3: the child record appears before its parent record,
yet the parent link, children list and flat account list are all
correct. -/
theorem account_two_pass_witness :
    List.lookup recA3.guid exBook3.parentMap = some recB3.guid ∧
    recA3.guid ∈ (List.lookup recB3.guid exBook3.childrenMap).getD [] ∧
    recA3.guid ∈ exBook3.accounts :=
  account_two_pass exDoc3 exBook3 (by decide) (by decide) recA3 recB3 (by decide)
    (by decide) (by decide) (by decide)

/-! ## C4: an invoice's entries are exactly those owned by it -/

theorem entry_from_tree_fields (tdict : List (String × Taxtable)) (r : EntryRec)
    (e : Entry) (h : entry_from_tree tdict r = .ok e) :
    e.guid = r.guid ∧ e.invoiceGuid = r.invoiceGuid := by
  unfold entry_from_tree at h
  split at h
  · cases h
  · rename_i qty hq
    split at h
    · cases h
    · rename_i price hp
      split at h
      · injection h with h
        subst h
        exact ⟨rfl, rfl⟩
      · rename_i t ht
        split at h
        · cases h
        · rename_i tg htg
          split at h
          · cases h
          · rename_i tt htt
            injection h with h
            subst h
            exact ⟨rfl, rfl⟩

theorem entriesPhase_sound : ∀ (recs : List EntryRec)
    (tdict : List (String × Taxtable)) (d entd : List (String × Entry)),
    entriesPhase tdict d recs = .ok entd →
    ∀ kv ∈ entd, kv ∈ d ∨ ∃ er ∈ recs, entry_from_tree tdict er = .ok kv.2
  | [], tdict, d, entd, h, kv, hkv => by
    simp only [entriesPhase, Except.ok.injEq] at h
    subst h
    exact Or.inl hkv
  | r :: rest, tdict, d, entd, h, kv, hkv => by
    simp only [entriesPhase] at h
    split at h
    · cases h
    · rename_i en hen
      rcases entriesPhase_sound rest tdict _ entd h kv hkv with hkv | ⟨er, hm, he⟩
      · rcases dictInsert_mem hkv with hkv | hkv
        · exact Or.inl hkv
        · subst hkv
          exact Or.inr ⟨r, List.mem_cons_self _ _, hen⟩
      · exact Or.inr ⟨er, List.mem_cons_of_mem _ hm, he⟩

theorem entriesPhase_preserve : ∀ (recs : List EntryRec)
    (tdict : List (String × Taxtable)) (d entd : List (String × Entry)),
    entriesPhase tdict d recs = .ok entd →
    ∀ g, g ∉ recs.map (fun r => r.guid) → List.lookup g entd = List.lookup g d
  | [], tdict, d, entd, h, g, hg => by
    simp only [entriesPhase, Except.ok.injEq] at h
    subst h
    rfl
  | r :: rest, tdict, d, entd, h, g, hg => by
    simp only [entriesPhase] at h
    split at h
    · cases h
    · rename_i en hen
      have hgr : g ≠ r.guid := by
        intro he
        exact hg (by simp [he])
      have hgrest : g ∉ rest.map (fun a => a.guid) := by
        intro he
        exact hg (by simp [List.mem_map] at he ⊢; right; exact he)
      have hgen : g ≠ en.guid := by
        rw [(entry_from_tree_fields tdict r en hen).1]
        exact hgr
      rw [entriesPhase_preserve rest tdict _ entd h g hgrest,
        lookup_dictInsert_ne _ _ hgen]

theorem entriesPhase_lookup : ∀ (recs : List EntryRec)
    (tdict : List (String × Taxtable)) (d entd : List (String × Entry)),
    entriesPhase tdict d recs = .ok entd →
    (recs.map (fun r => r.guid)).Nodup →
    ∀ r ∈ recs, ∃ e, entry_from_tree tdict r = .ok e ∧
      List.lookup r.guid entd = some e
  | [], tdict, d, entd, h, hnd, r, hr => by
    cases hr
  | r0 :: rest, tdict, d, entd, h, hnd, r, hr => by
    simp only [entriesPhase] at h
    split at h
    · cases h
    · rename_i en hen
      rcases List.mem_cons.mp hr with hr | hr
      · subst hr
        have hnotin : r.guid ∉ rest.map (fun a => a.guid) := by
          rw [List.map_cons, List.nodup_cons] at hnd
          exact hnd.1
        refine ⟨en, hen, ?_⟩
        rw [entriesPhase_preserve rest tdict _ entd h r.guid hnotin,
          ← (entry_from_tree_fields tdict r en hen).1, lookup_dictInsert_self]
      · have hnd2 : (rest.map (fun a => a.guid)).Nodup := by
          rw [List.map_cons, List.nodup_cons] at hnd
          exact hnd.2
        exact entriesPhase_lookup rest tdict _ entd h hnd2 r hr

theorem invoicesPhase_mem : ∀ (recs : List InvoiceRec)
    (custd : List (String × Customer)) (entd : List (String × Entry))
    (vend : List (String × Vendor)) (invs : List Invoice),
    invoicesPhase custd entd vend recs = .ok invs →
    ∀ inv ∈ invs, ∃ ir ∈ recs, invoice_from_tree custd entd vend ir = .ok inv
  | [], custd, entd, vend, invs, h, inv, hinv => by
    simp only [invoicesPhase, Except.ok.injEq] at h
    subst h
    cases hinv
  | r :: rest, custd, entd, vend, invs, h, inv, hinv => by
    simp only [invoicesPhase] at h
    split at h
    · cases h
    · rename_i inv1 hinv1
      split at h
      · cases h
      · rename_i invs1 hinvs1
        injection h with h
        subst h
        rcases List.mem_cons.mp hinv with hinv | hinv
        · subst hinv
          exact ⟨r, List.mem_cons_self _ _, hinv1⟩
        · obtain ⟨ir, hm, he⟩ :=
            invoicesPhase_mem rest custd entd vend invs1 hinvs1 inv hinv
          exact ⟨ir, List.mem_cons_of_mem _ hm, he⟩

theorem invoice_from_tree_fields (custd : List (String × Customer))
    (entd : List (String × Entry)) (vend : List (String × Vendor))
    (r : InvoiceRec) (inv : Invoice)
    (h : invoice_from_tree custd entd vend r = .ok inv) :
    inv.guid = r.guid ∧
    inv.entries = (entd.map Prod.snd).filter
      (fun en => decide (en.invoiceGuid = some r.guid)) := by
  unfold invoice_from_tree at h
  split at h
  · cases h
  · rename_i customer hcust
    split at h
    · cases h
    · rename_i vendor hvend
      injection h with h
      subst h
      exact ⟨rfl, rfl⟩

/-- C4: for every invoice of a loaded document, an entry is in the
invoice's entry list exactly when it was parsed from an entry record
whose owning-invoice guid is the invoice's guid — wherever the entry and
invoice records appear in document order. -/
theorem invoice_entries_exact (doc : GnucashDoc) (b : Book)
    (tdict : List (String × Taxtable))
    (h : book_from_tree doc = .ok b)
    (ht : taxtablesPhase [] doc.taxtables = .ok tdict)
    (hnd : (doc.entries.map (fun er => er.guid)).Nodup)
    (inv : Invoice) (hinv : inv ∈ b.invoices) (e : Entry) :
    e ∈ inv.entries ↔
      ∃ er ∈ doc.entries, entry_from_tree tdict er = .ok e ∧
        er.invoiceGuid = some inv.guid := by
  unfold book_from_tree at h
  split at h
  · cases h
  · rename_i prices st hpr
    split at h
    · cases h
    · rename_i root adict pdict h1
      split at h
      · cases h
      · rename_i pm cm al h2
        split at h
        · cases h
        · rename_i txs sm h3
          split at h
          · cases h
          · rename_i tdict0 h4
            split at h
            · cases h
            · rename_i entd h5
              split at h
              · cases h
              · rename_i invoices h6
                split at h
                · cases h
                · rename_i slots h7
                  injection h with h
                  subst h
                  have htd : tdict0 = tdict := Except.ok.inj (h4.symm.trans ht)
                  rw [htd] at h5
                  obtain ⟨ir, hirm, hio⟩ :=
                    invoicesPhase_mem doc.invoices _ entd _ invoices h6 inv hinv
                  obtain ⟨hg, hent⟩ := invoice_from_tree_fields _ entd _ ir inv hio
                  rw [hent, hg]
                  constructor
                  · intro he
                    obtain ⟨hmem, hflt⟩ := List.mem_filter.mp he
                    rcases List.mem_map.mp hmem with ⟨kv, hkvm, hkv2⟩
                    rcases entriesPhase_sound doc.entries tdict [] entd h5 kv hkvm with
                      hkv | ⟨er, herm, hok⟩
                    · cases hkv
                    · rw [hkv2] at hok
                      refine ⟨er, herm, hok, ?_⟩
                      rw [← (entry_from_tree_fields tdict er e hok).2]
                      exact of_decide_eq_true hflt
                  · rintro ⟨er, herm, hok, hig⟩
                    obtain ⟨e', hok', hl⟩ :=
                      entriesPhase_lookup doc.entries tdict [] entd h5 hnd er herm
                    have hee : e' = e := Except.ok.inj (hok'.symm.trans hok)
                    subst hee
                    refine List.mem_filter.mpr ⟨?_, ?_⟩
                    · exact List.mem_map.mpr ⟨(er.guid, e'), lookup_some_mem hl, rfl⟩
                    · rw [decide_eq_true_eq, (entry_from_tree_fields tdict er e' hok').2]
                      exact hig

def exEr4a : EntryRec :=
  { guid := "e1", action := none, description := none, qtyText := none,
    priceText := none, invoiceGuid := some "i1", iTaxable := none,
    iTaxtable := none }

def exEr4b : EntryRec :=
  { guid := "e2", action := none, description := none, qtyText := none,
    priceText := none, invoiceGuid := some "i9", iTaxable := none,
    iTaxtable := none }

def exDoc4 : GnucashDoc :=
  { bookGuid := "b4", commodities := [], prices := [], accounts := [],
    transactions := [], customers := [], vendors := [], taxtables := [],
    entries := [exEr4a, exEr4b],
    invoices := [{ guid := "i1", id := "1", openedDate := "2024-02-01",
                   ownerType := "gncJob", ownerId := "j1", active := "1" }],
    slots := none }

def exBook4 : Book := ((book_from_tree exDoc4).toOption).get (by decide)

def exInv4 : Invoice := exBook4.invoices.head (by decide)

def exEntry4 : Entry := ((entry_from_tree [] exEr4a).toOption).get (by decide)

/-- Witness for C4: in a concrete document with one matching and one
non-matching entry, membership in the invoice's entry list coincides
with ownership by guid. -/
theorem invoice_entries_exact_witness :
    exEntry4 ∈ exInv4.entries ↔
      ∃ er ∈ exDoc4.entries, entry_from_tree [] er = .ok exEntry4 ∧
        er.invoiceGuid = some exInv4.guid :=
  invoice_entries_exact exDoc4 exBook4 [] (by decide) (by decide) (by decide)
    exInv4 (by decide) exEntry4

/-! ## C5: invoice owner resolution -/

theorem invoice_from_tree_owner (custd : List (String × Customer))
    (entd : List (String × Entry)) (vend : List (String × Vendor))
    (r : InvoiceRec) (inv : Invoice)
    (h : invoice_from_tree custd entd vend r = .ok inv) :
    inv.guid = r.guid ∧
    (r.ownerType = "gncCustomer" → inv.customer.isSome ∧ inv.vendor = none) ∧
    (r.ownerType = "gncVendor" → inv.vendor.isSome ∧ inv.customer = none) ∧
    (r.ownerType ≠ "gncCustomer" → r.ownerType ≠ "gncVendor" →
      inv.customer = none ∧ inv.vendor = none) := by
  unfold invoice_from_tree at h
  split at h
  · cases h
  · rename_i customer hcust
    split at h
    · cases h
    · rename_i vendor hvend
      injection h with h
      subst h
      refine ⟨rfl, ?_, ?_, ?_⟩
      · intro hc
        rw [if_pos hc] at hcust
        rw [if_neg (by rw [hc]; simp)] at hvend
        injection hvend with hvend
        cases hl : List.lookup r.ownerId custd with
        | none => rw [hl] at hcust; cases hcust
        | some c =>
          rw [hl] at hcust
          injection hcust with hcust
          subst hcust
          subst hvend
          exact ⟨rfl, rfl⟩
      · intro hv
        rw [if_pos hv] at hvend
        rw [if_neg (by rw [hv]; simp)] at hcust
        injection hcust with hcust
        cases hl : List.lookup r.ownerId vend with
        | none => rw [hl] at hvend; cases hvend
        | some v =>
          rw [hl] at hvend
          injection hvend with hvend
          subst hvend
          subst hcust
          exact ⟨rfl, rfl⟩
      · intro hc hv
        rw [if_neg hc] at hcust
        rw [if_neg hv] at hvend
        injection hcust with hcust
        injection hvend with hvend
        subst hcust
        subst hvend
        exact ⟨rfl, rfl⟩

/-- C5 (amended): at most one of an invoice's customer and vendor fields
is ever set — never both.  The `gncCustomer` owner type sets exactly the
customer, `gncVendor` sets exactly the vendor, and any other owner type
(e.g. `gncEmployee`) leaves both unset, so "exactly one" does not hold in
general. -/
theorem invoice_owner_branches (doc : GnucashDoc) (b : Book)
    (h : book_from_tree doc = .ok b) (inv : Invoice) (hinv : inv ∈ b.invoices) :
    (inv.customer = none ∨ inv.vendor = none) ∧
    ∃ ir ∈ doc.invoices, inv.guid = ir.guid ∧
      (ir.ownerType = "gncCustomer" → inv.customer.isSome ∧ inv.vendor = none) ∧
      (ir.ownerType = "gncVendor" → inv.vendor.isSome ∧ inv.customer = none) ∧
      (ir.ownerType ≠ "gncCustomer" → ir.ownerType ≠ "gncVendor" →
        inv.customer = none ∧ inv.vendor = none) := by
  unfold book_from_tree at h
  split at h
  · cases h
  · rename_i prices st hpr
    split at h
    · cases h
    · rename_i root adict pdict h1
      split at h
      · cases h
      · rename_i pm cm al h2
        split at h
        · cases h
        · rename_i txs sm h3
          split at h
          · cases h
          · rename_i tdict0 h4
            split at h
            · cases h
            · rename_i entd h5
              split at h
              · cases h
              · rename_i invoices h6
                split at h
                · cases h
                · rename_i slots h7
                  injection h with h
                  subst h
                  obtain ⟨ir, hirm, hio⟩ :=
                    invoicesPhase_mem doc.invoices _ entd _ invoices h6 inv hinv
                  obtain ⟨hg, hcb, hvb, hob⟩ :=
                    invoice_from_tree_owner _ entd _ ir inv hio
                  refine ⟨?_, ir, hirm, hg, hcb, hvb, hob⟩
                  by_cases hc : ir.ownerType = "gncCustomer"
                  · exact Or.inr (hcb hc).2
                  · by_cases hv : ir.ownerType = "gncVendor"
                    · exact Or.inl (hvb hv).2
                    · exact Or.inl (hob hc hv).1

def exDoc5x : GnucashDoc :=
  { bookGuid := "b5x", commodities := [], prices := [], accounts := [],
    transactions := [], customers := [], vendors := [], taxtables := [],
    entries := [],
    invoices := [{ guid := "i5x", id := "7", openedDate := "2024-03-01",
                   ownerType := "gncEmployee", ownerId := "emp1",
                   active := "1" }],
    slots := none }

def exBook5x : Book := ((book_from_tree exDoc5x).toOption).get (by decide)

def exInv5x : Invoice := exBook5x.invoices.head (by decide)

/-- Counterexample to C5 as stated: an invoice owned by a `gncEmployee`
loads without error, and neither the customer nor the vendor field is
set — so "exactly one of customer and vendor" fails. -/
theorem invoice_owner_counterexample :
    book_from_tree exDoc5x = .ok exBook5x ∧
    exInv5x ∈ exBook5x.invoices ∧
    exInv5x.customer = none ∧ exInv5x.vendor = none :=
  ⟨by decide, by decide, by decide, by decide⟩

def exDoc5 : GnucashDoc :=
  { bookGuid := "b5", commodities := [], prices := [], accounts := [],
    transactions := [],
    customers := [{ guid := "c1", name := "Alice", addr1 := none,
                    addr2 := none, addr3 := none, addr4 := none }],
    vendors := [], taxtables := [], entries := [],
    invoices := [{ guid := "i5", id := "2", openedDate := "2024-03-02",
                   ownerType := "gncCustomer", ownerId := "c1",
                   active := "1" }],
    slots := none }

def exBook5 : Book := ((book_from_tree exDoc5).toOption).get (by decide)

def exInv5 : Invoice := exBook5.invoices.head (by decide)

/-- Witness for the amended C5 on a concrete customer-owned invoice. -/
theorem invoice_owner_branches_witness :
    (exInv5.customer = none ∨ exInv5.vendor = none) ∧
    ∃ ir ∈ exDoc5.invoices, exInv5.guid = ir.guid ∧
      (ir.ownerType = "gncCustomer" →
        exInv5.customer.isSome ∧ exInv5.vendor = none) ∧
      (ir.ownerType = "gncVendor" →
        exInv5.vendor.isSome ∧ exInv5.customer = none) ∧
      (ir.ownerType ≠ "gncCustomer" → ir.ownerType ≠ "gncVendor" →
        exInv5.customer = none ∧ exInv5.vendor = none) :=
  invoice_owner_branches exDoc5 exBook5 (by decide) exInv5 (by decide)
